import Mathlib

/-!
# A verification development for the RPC framework

A shallow embedding of the discovery (`xclient/discovery.go`), of the heartbeat
registry (`registry/registry.go`), of the server (`server.go`) and of the trie
router (`gee/tire.go`, `gee/router.go`), followed by the theorems that settle
the properties of the specification.

Go `int` values are exact integers, wrapped to 64 bits where the code adds;
instants and durations are integers counting nanoseconds; strings are compared
as their character sequences.
-/

/-! # Client-side discovery (`xclient/discovery.go`) -/

namespace xclient

/-- Largest value of a Go `int` on a 64-bit target (`math.MaxInt64`). -/
def maxInt : Int := 2 ^ 63 - 1

/-- The constant `math.MaxInt32`. -/
def MaxInt32 : Int := 2 ^ 31 - 1

/-- Two's-complement wrap-around of an exact integer into the 64-bit `int` range,
the result Go gives for an `int` addition whose exact value is `x`. -/
def wrapInt (x : Int) : Int := (x + 2 ^ 63) % 2 ^ 64 - 2 ^ 63

/-- Outcome of a Go call returning `(α, error)`: a value with a nil error, a
non-nil error carrying its message, or a run-time panic. -/
inductive Result (α : Type) where
  | ok (v : α)
  | error (msg : String)
  | panic
  deriving DecidableEq, Repr

/-- A seeded `*rand.Rand`: the stream of raw draws of the source and the number
of draws consumed so far. -/
structure Rand where
  src : Nat → Nat
  pos : Nat

/-- The call `r.Intn(n)`: panics (`none`) for `n ≤ 0`, otherwise consumes one
draw and yields a value in `[0, n)`. -/
def Rand.Intn (r : Rand) (n : Int) : Option (Int × Rand) :=
  if n ≤ 0 then none
  else some ((r.src r.pos : Int) % n, { r with pos := r.pos + 1 })

/-- Slice indexing `xs[i]` with an `int` index: out of range is a panic (`none`). -/
def sliceIndex (xs : List String) (i : Int) : Option String :=
  if 0 ≤ i ∧ i < (xs.length : Int) then xs.get? i.toNat else none

/-- The builtin `copy(dst, src)`: overwrites the first `min (len dst) (len src)`
elements of `dst`. -/
def copy (dst src : List String) : List String :=
  src.take (min dst.length src.length) ++ dst.drop (min dst.length src.length)

/-- The type `SelectMode` is a Go `int`. -/
abbrev SelectMode := Int

def RandomSelect : SelectMode := 0

def RoundRobinSelect : SelectMode := 1

structure MultiServersDiscovery where
  r : Rand
  servers : List String
  index : Int

/-- The method `Refresh` does nothing and returns a nil error. -/
def MultiServersDiscovery.Refresh (d : MultiServersDiscovery) :
    Option String × MultiServersDiscovery :=
  (none, d)

/-- The method `Update` replaces the server list and returns a nil error. -/
def MultiServersDiscovery.Update (d : MultiServersDiscovery) (servers : List String) :
    Option String × MultiServersDiscovery :=
  (none, { d with servers := servers })

def MultiServersDiscovery.Get (d : MultiServersDiscovery) (mode : SelectMode) :
    Result String × MultiServersDiscovery :=
  let n : Int := d.servers.length
  if n = 0 then
    (Result.error "rpc discovery: no available servers", d)
  else if mode = RandomSelect then
    match d.r.Intn n with
    | none => (Result.panic, d)
    | some (i, r1) =>
      match sliceIndex d.servers i with
      | none => (Result.panic, { d with r := r1 })
      | some s => (Result.ok s, { d with r := r1 })
  else if mode = RoundRobinSelect then
    match sliceIndex d.servers (d.index.tmod n) with
    | none => (Result.panic, d)
    | some s => (Result.ok s, { d with index := (wrapInt (d.index + 1)).tmod n })
  else
    (Result.error "rpc discovery: not supported select mode", d)

def MultiServersDiscovery.GetAll (d : MultiServersDiscovery) : Result (List String) :=
  let servers := List.replicate d.servers.length ""
  Result.ok (copy servers d.servers)

/-- The constructor, given the freshly seeded random source: a panic of `Intn`
is `none`. -/
def NewMultiServerDiscovery (seeded : Rand) (servers : List String) :
    Option MultiServersDiscovery :=
  match seeded.Intn (MaxInt32 - 1) with
  | none => none
  | some (i, r1) => some { r := r1, servers := servers, index := i }

/-- Runs `k` consecutive calls `Get(mode)` with no other call in between, and
collects their outcomes in call order. -/
def consecutiveGets (mode : SelectMode) :
    Nat → MultiServersDiscovery → List (Result String) × MultiServersDiscovery
  | 0, d => ([], d)
  | k + 1, d =>
    let step := d.Get mode
    let rest := consecutiveGets mode k step.2
    (step.1 :: rest.1, rest.2)

/-- One call on a discovery through its exported methods. -/
inductive Op where
  | refresh
  | update (servers : List String)
  | get (mode : SelectMode)
  | getAll

/-- The discovery after one call. -/
def Op.run (d : MultiServersDiscovery) : Op → MultiServersDiscovery
  | Op.refresh => d.Refresh.2
  | Op.update servers => (d.Update servers).2
  | Op.get mode => (d.Get mode).2
  | Op.getAll => d

/-- The discovery after a sequence of calls, one after the other. -/
def runOps (ops : List Op) (d : MultiServersDiscovery) : MultiServersDiscovery :=
  ops.foldl Op.run d

end xclient

/-! # Heartbeat registry (`registry/registry.go`) -/

namespace registry

/-- An instant (`time.Time`), as a count of nanoseconds on the clock time line. -/
abbrev Time := Int

/-- A `time.Duration`, in nanoseconds. -/
abbrev Duration := Int

def Millisecond : Duration := 1000000

def Minute : Duration := 60 * 1000 * Millisecond

structure ServerItem where
  Addr : String
  start : Time
  deriving DecidableEq, Repr

/-- A Go `map[string]*ServerItem`: its entries, listed in the order in which a
`range` loop visits them, with pairwise distinct keys. -/
structure ServerMap where
  entries : List (String × ServerItem)
  nodupKeys : (entries.map Prod.fst).Nodup

/-- The result of `make(map[string]*ServerItem)`. -/
def ServerMap.make : ServerMap := ⟨[], List.nodup_nil⟩

/-- The lookup `m[addr]`; `none` is the nil pointer of an absent key. -/
def ServerMap.get (m : ServerMap) (addr : String) : Option ServerItem :=
  (m.entries.find? (fun e => e.1 = addr)).map Prod.snd

/-- The builtin `delete(m, addr)`. -/
def ServerMap.delete (m : ServerMap) (addr : String) : ServerMap :=
  ⟨m.entries.filter (fun e => e.1 ≠ addr), by
    have h := m.nodupKeys
    exact (List.Nodup.sublist (List.Sublist.map _ (List.filter_sublist _)) h)⟩

/-- The assignment `m[addr] = item` for a key that is not in the map yet. -/
def ServerMap.insertNew (m : ServerMap) (addr : String) (item : ServerItem)
    (h : m.get addr = none) : ServerMap :=
  ⟨m.entries ++ [(addr, item)], by
    have hk : addr ∉ m.entries.map Prod.fst := by
      intro hmem
      rw [List.mem_map] at hmem
      obtain ⟨e, he, hfst⟩ := hmem
      have hnone : m.entries.find? (fun e => e.1 = addr) = none := by
        simpa [ServerMap.get] using h
      rw [List.find?_eq_none] at hnone
      exact hnone e he (by simpa using hfst)
    rw [List.map_append, List.nodup_append]
    refine ⟨m.nodupKeys, by simp, ?_⟩
    intro a ha hb
    simp at hb
    exact hk (hb ▸ ha)⟩

/-- The store `s.start = t` through the pointer held under the key `addr`. -/
def ServerMap.setStart (m : ServerMap) (addr : String) (t : Time) : ServerMap :=
  ⟨m.entries.map (fun e => if e.1 = addr then (e.1, { e.2 with start := t }) else e), by
    have h := m.nodupKeys
    have e : (m.entries.map
        (fun e => if e.1 = addr then (e.1, { e.2 with start := t }) else e)).map Prod.fst
        = m.entries.map Prod.fst := by
      rw [List.map_map]
      refine List.map_congr_left ?_
      intro a _
      by_cases ha : a.1 = addr <;> simp [ha]
    rw [e]; exact h⟩

structure GeeRegistry where
  timeout : Duration
  servers : ServerMap

def defaultTimeout : Duration := Minute * 5

def New (timeout : Duration) : GeeRegistry :=
  { servers := ServerMap.make, timeout := timeout }

/-- The method `putServer`, with `now` the value read from `time.Now()`. -/
def GeeRegistry.putServer (r : GeeRegistry) (addr : String) (now : Time) : GeeRegistry :=
  match h : r.servers.get addr with
  | none => { r with servers := r.servers.insertNew addr { Addr := addr, start := now } h }
  | some _ => { r with servers := r.servers.setStart addr now }

/-- The library call `sort.Strings`: sorts into ascending lexicographic order. -/
def sortStrings (l : List String) : List String :=
  l.insertionSort (fun a b => a.data ≤ b.data)

/-- The body of the `range` loop of `aliveServers` for one entry; `now` is the
value `time.Now()` returns in that iteration. -/
def aliveStep (timeout : Duration) (now : Time) (acc : List String × ServerMap)
    (e : String × ServerItem) : List String × ServerMap :=
  if timeout = 0 ∨ now < e.2.start + timeout then
    (acc.1 ++ [e.1], acc.2)
  else
    (acc.1, acc.2.delete e.1)

/-- The `range` loop of `aliveServers` over the entries still to visit; the
iteration number `k` reads the clock as `clock k`, one call of `time.Now()` per
iteration. -/
def aliveLoop (timeout : Duration) (clock : Nat → Time) :
    List (String × ServerItem) → Nat → List String × ServerMap → List String × ServerMap
  | [], _, acc => acc
  | e :: es, k, acc => aliveLoop timeout clock es (k + 1) (aliveStep timeout (clock k) acc e)

/-- The method `aliveServers`: `clock k` is the value `time.Now()` returns in the
iteration number `k` of its loop (`fun _ => now` when the clock does not move
during the listing); returns the sorted list and the registry left behind. -/
def GeeRegistry.aliveServers (r : GeeRegistry) (clock : Nat → Time) :
    List String × GeeRegistry :=
  let loop := aliveLoop r.timeout clock r.servers.entries 0 ([], r.servers)
  (sortStrings loop.1, { r with servers := loop.2 })

/-- A call made on the registry: a heartbeat `putServer addr` with the clock
reading it sees, or a listing `aliveServers` with the clock readings of its
loop. -/
inductive Call where
  | put (addr : String) (now : Time)
  | list (clock : Nat → Time)

/-- Runs a sequence of calls and collects the lists returned by the listings. -/
def runCalls : List Call → GeeRegistry → List (List String) × GeeRegistry
  | [], r => ([], r)
  | Call.put addr now :: cs, r => runCalls cs (r.putServer addr now)
  | Call.list clock :: cs, r =>
    let res := r.aliveServers clock
    let rest := runCalls cs res.2
    (res.1 :: rest.1, rest.2)

/-- The loop of the goroutine started by `Heartbeat`: `ticks` is the number of
ticks the ticker still delivers, `k` the number of `sendHeartbeat` calls made so
far, `err` the error of the last one and `send j` the error returned by the call
number `j`. The result is the total number of calls made. -/
def heartbeatLoop (send : Nat → Option String) : Nat → Nat → Option String → Nat
  | 0, k, _ => k
  | ticks + 1, k, err =>
    if err = none then heartbeatLoop send ticks (k + 1) (send k) else k

/-- The function `Heartbeat` observed until the ticker has delivered `ticks`
ticks, whatever the interval between two ticks: the number of `sendHeartbeat`
calls made. -/
def Heartbeat (send : Nat → Option String) (ticks : Nat) : Nat :=
  heartbeatLoop send ticks 1 (send 0)

end registry

/-! # Server (`server.go`) and message header (`codec/codec.go`) -/

namespace codec

structure Header where
  ServiceMethod : String
  Seq : Nat
  Error : String
  deriving DecidableEq, Repr

/-- The read side of a value of the interface `Codec` over a stream in state
`σ`: each call consumes input and yields the decoded value or the error
message. -/
structure Codec (σ Val : Type) where
  ReadHeader : σ → Except String Header × σ
  ReadBody : σ → Except String Val × σ

end codec

namespace rpc

open codec

/-- Modelled from the spec: the MethodDescriptor (`methodType`, declared in a
file that is not among the sources), reduced to its invocation entry point: from
the decoded argument the call yields the reply value and the error of the method
(`none` for a nil error), or never returns (`none`). -/
structure methodType (Val : Type) where
  invoke : Val → Option (Val × Option String)

/-- Modelled from the spec: the ServiceDescriptor (`service`, declared in a file
that is not among the sources): a name and the mapping from method name to
method descriptor. -/
structure service (Val : Type) where
  name : String
  method : String → Option (methodType Val)

/-- Modelled from the spec: the call `svc.call(mtype, argv, replyv)` invokes the
method through its descriptor. -/
def service.call {Val : Type} (_svc : service Val) (mtype : methodType Val) (argv : Val) :
    Option (Val × Option String) :=
  mtype.invoke argv

/-- The server: `serviceMap` is the `sync.Map` from service name to service. -/
structure Server (Val : Type) where
  serviceMap : String → Option (service Val)

/-- The library call `strings.LastIndex(s, sep)` for a one-character separator:
the position of the last occurrence, or `-1`. -/
def LastIndex : List Char → Char → Int
  | [], _ => -1
  | x :: xs, c =>
    if 0 ≤ LastIndex xs c then LastIndex xs c + 1
    else if x = c then 0
    else -1

/-- The three results `(svc, mtype, err)` of `findService`. -/
structure Found (Val : Type) where
  svc : Option (service Val)
  mtype : Option (methodType Val)
  err : Option String

def Server.findService {Val : Type} (server : Server Val) (serviceMethod : String) :
    Found Val :=
  let dot := LastIndex serviceMethod.data '.'
  if dot < 0 then
    ⟨none, none, some ("rpc server: service/method request ill-formed: " ++ serviceMethod)⟩
  else
    let serviceName : String := ⟨serviceMethod.data.take dot.toNat⟩
    let methodName : String := ⟨serviceMethod.data.drop (dot + 1).toNat⟩
    match server.serviceMap serviceName with
    | none => ⟨none, none, some ("rpc server: can't find service " ++ serviceName)⟩
    | some svc =>
      match svc.method methodName with
      | none => ⟨some svc, none, some ("rpc server: can't find method " ++ methodName)⟩
      | some mtype => ⟨some svc, some mtype, none⟩

/-- The body of a response: the placeholder `invalidRequest` or a reply value. -/
inductive Body (Val : Type) where
  | invalidRequest
  | reply (v : Val)
  deriving DecidableEq, Repr

/-- One call `cc.Write(h, body)` made by `sendResponse`. -/
abbrev Frame (Val : Type) := Header × Body Val

/-- A request that `readRequest` returned with a nil error. -/
structure request (Val : Type) where
  h : Header
  argv : Val
  mtype : methodType Val
  svc : service Val

/-- The results `(req, err)` of `readRequest`: `(nil, err)` when the header
could not be read, `(req, err)` with `req.h` the header read when the method was
not found or the body could not be read, and `(req, nil)`; or a nil-pointer
panic. -/
inductive ReadOutcome (Val : Type) where
  | noHeader (err : String)
  | failed (h : Header) (err : String)
  | ok (req : request Val)
  | panic

def Server.readRequestHeader {σ Val : Type} (_server : Server Val) (cc : Codec σ Val) (st : σ) :
    Except String Header × σ :=
  cc.ReadHeader st

def Server.readRequest {σ Val : Type} (server : Server Val) (cc : Codec σ Val) (st : σ) :
    ReadOutcome Val × σ :=
  match server.readRequestHeader cc st with
  | (Except.error err, st1) => (ReadOutcome.noHeader err, st1)
  | (Except.ok h, st1) =>
    match server.findService h.ServiceMethod with
    | ⟨_, _, some err⟩ => (ReadOutcome.failed h err, st1)
    | ⟨some svc, some mtype, none⟩ =>
      match cc.ReadBody st1 with
      | (Except.error err, st2) => (ReadOutcome.failed h err, st2)
      | (Except.ok argv, st2) => (ReadOutcome.ok ⟨h, argv, mtype, svc⟩, st2)
    | ⟨_, _, none⟩ => (ReadOutcome.panic, st1)

/-- Where the goroutine started inside `handleRequest` stands: inside
`req.svc.call`, blocked in the send on `called`, past that send and before its
`sendResponse`, blocked in the send on `sent` after its `sendResponse`, or
finished. -/
inductive CallPC where
  | calling
  | sendCalled
  | responding
  | sendSent
  | finished
  deriving DecidableEq, Repr

/-- Where the body of `handleRequest` stands: blocked in `<-called` (the branch
`timeout == 0`), blocked in the `select`, past the `select` through the timer
case and before its `sendResponse`, blocked in `<-sent`, or returned. -/
inductive WaitPC where
  | recvCalled
  | selecting
  | timedOut
  | recvSent
  | returned
  deriving DecidableEq, Repr

/-- The state of one `handleRequest`: the header `req.h` shared by the two
goroutines, their positions, and the frames written so far, oldest first. -/
structure Handling (Val : Type) where
  h : Header
  call : CallPC
  wait : WaitPC
  written : List (Frame Val)
  deriving DecidableEq

/-- The moves of the two goroutines of one `handleRequest`: the method returns;
the unbuffered channel `called` passes its value; the `select` takes the timer
case; the timeout response is written; the goroutine writes its response; the
unbuffered channel `sent` passes its value. -/
inductive Event where
  | callReturns
  | passCalled
  | timerFires
  | writeTimeout
  | respond
  | passSent
  deriving DecidableEq, Repr

def Event.all : List Event :=
  [Event.callReturns, Event.passCalled, Event.timerFires, Event.writeTimeout, Event.respond,
    Event.passSent]

/-- Whether a move can be made in a state. -/
def enabled {Val : Type} (req : request Val) (s : Handling Val) : Event → Bool
  | Event.callReturns =>
    decide (s.call = CallPC.calling) && (req.svc.call req.mtype req.argv).isSome
  | Event.passCalled =>
    decide (s.call = CallPC.sendCalled) &&
      (decide (s.wait = WaitPC.recvCalled) || decide (s.wait = WaitPC.selecting))
  | Event.timerFires => decide (s.wait = WaitPC.selecting)
  | Event.writeTimeout => decide (s.wait = WaitPC.timedOut)
  | Event.respond => decide (s.call = CallPC.responding)
  | Event.passSent => decide (s.call = CallPC.sendSent) && decide (s.wait = WaitPC.recvSent)

/-- The effect of a move; `text` is the duration `timeout` as `%s` prints it. -/
def effect {Val : Type} (req : request Val) (text : String) (s : Handling Val) :
    Event → Handling Val
  | Event.callReturns => { s with call := CallPC.sendCalled }
  | Event.passCalled => { s with call := CallPC.responding, wait := WaitPC.recvSent }
  | Event.timerFires => { s with wait := WaitPC.timedOut }
  | Event.writeTimeout =>
    let h : Header :=
      { s.h with Error := "rpc server: request handle timeout: expect within " ++ text }
    { s with h := h, wait := WaitPC.returned,
             written := s.written ++ [(h, Body.invalidRequest)] }
  | Event.respond =>
    match req.svc.call req.mtype req.argv with
    | some (_, some err) =>
      let h : Header := { s.h with Error := err }
      { s with h := h, call := CallPC.sendSent,
               written := s.written ++ [(h, Body.invalidRequest)] }
    | some (replyv, none) =>
      { s with call := CallPC.sendSent, written := s.written ++ [(s.h, Body.reply replyv)] }
    | none => s
  | Event.passSent => { s with call := CallPC.finished, wait := WaitPC.returned }

/-- One scheduling step: the chosen move is made if it can be, else nothing
happens. -/
def handleStep {Val : Type} (req : request Val) (text : String) (s : Handling Val)
    (e : Event) : Handling Val :=
  if enabled req s e then effect req text s e else s

/-- The state in which `handleRequest` starts its goroutine. -/
def handleInit {Val : Type} (req : request Val) (timeout : Int) : Handling Val :=
  { h := req.h, call := CallPC.calling,
    wait := if timeout = 0 then WaitPC.recvCalled else WaitPC.selecting,
    written := [] }

/-- The method `handleRequest` run under the schedule `sched`. -/
def Server.handleRequest {Val : Type} (_server : Server Val) (req : request Val)
    (timeout : Int) (text : String) (sched : List Event) : Handling Val :=
  sched.foldl (handleStep req text) (handleInit req timeout)

/-- No move can be made: every goroutine has returned or is blocked for good. -/
def quiescent {Val : Type} (req : request Val) (s : Handling Val) : Bool :=
  Event.all.all (fun e => !enabled req s e)

/-- The frame the goroutine of `handleRequest` writes once the method has
returned. -/
def methodFrame {Val : Type} (req : request Val) : Option (Frame Val) :=
  match req.svc.call req.mtype req.argv with
  | some (_, some err) => some ({ req.h with Error := err }, Body.invalidRequest)
  | some (replyv, none) => some (req.h, Body.reply replyv)
  | none => none

/-- The frame `handleRequest` writes when the `select` takes the timer case. -/
def timeoutFrame {Val : Type} (req : request Val) (text : String) : Frame Val :=
  ({ req.h with Error := "rpc server: request handle timeout: expect within " ++ text },
    Body.invalidRequest)

/-- What the serve loop did for one header it read: the header as decoded and
the frames written in answer to it. -/
structure Exchange (Val : Type) where
  request : Header
  written : List (Frame Val)
  deriving DecidableEq

/-- The loop of `serveCodec`, for at most `fuel` iterations from the stream state
`st`; `timeout` is `opt.HandleTimeout`, `text` its printed form and `scheds k`
the schedule followed so far by the `handleRequest` dispatched with `k`
iterations left. -/
def Server.serveCodec {σ Val : Type} (server : Server Val) (cc : Codec σ Val) (timeout : Int)
    (text : String) (scheds : Nat → List Event) : Nat → σ → List (Exchange Val)
  | 0, _ => []
  | fuel + 1, st =>
    match server.readRequest cc st with
    | (ReadOutcome.noHeader _, _) => []
    | (ReadOutcome.panic, _) => []
    | (ReadOutcome.failed h err, st1) =>
      ⟨h, [({ h with Error := err }, Body.invalidRequest)]⟩ ::
        Server.serveCodec server cc timeout text scheds fuel st1
    | (ReadOutcome.ok req, st1) =>
      ⟨req.h, (server.handleRequest req timeout text (scheds fuel)).written⟩ ::
        Server.serveCodec server cc timeout text scheds fuel st1

/-- A message on the wire, for a codec reading from a list of messages. -/
inductive Wire (Val : Type) where
  | header (h : Header)
  | body (v : Val)

/-- A codec over a list of messages: a read takes the next message and fails
when the stream has ended or the message is of the other kind. -/
def listCodec (Val : Type) : Codec (List (Wire Val)) Val where
  ReadHeader := fun st =>
    match st with
    | [] => (Except.error "EOF", [])
    | Wire.header h :: rest => (Except.ok h, rest)
    | Wire.body _ :: rest => (Except.error "type mismatch", rest)
  ReadBody := fun st =>
    match st with
    | [] => (Except.error "EOF", [])
    | Wire.body v :: rest => (Except.ok v, rest)
    | Wire.header _ :: rest => (Except.error "type mismatch", rest)

/-- A server with the one service `Foo`: `Sum` returns its argument, `Fail`
returns an error with an empty message and `Sleep` never returns. -/
def fooServer : Server Int :=
  ⟨fun n =>
    if n = "Foo" then
      some ⟨"Foo", fun m =>
        if m = "Sum" then some ⟨fun a => some (a, none)⟩
        else if m = "Fail" then some ⟨fun a => some (a, some "")⟩
        else if m = "Sleep" then some ⟨fun _ => none⟩
        else none⟩
    else none⟩

/-- The states one `handleRequest` passes through, position by position: no
frame before a goroutine writes, the timeout frame alone once the timer case has
written, the method's frame alone once the goroutine has written. -/
def handleInv {Val : Type} (req : request Val) (timeout : Int) (text : String)
    (s : Handling Val) : Prop :=
  match s.call, s.wait with
  | CallPC.calling, WaitPC.recvCalled => timeout = 0 ∧ s.h = req.h ∧ s.written = []
  | CallPC.calling, WaitPC.selecting => timeout ≠ 0 ∧ s.h = req.h ∧ s.written = []
  | CallPC.calling, WaitPC.timedOut => timeout ≠ 0 ∧ s.h = req.h ∧ s.written = []
  | CallPC.calling, WaitPC.returned => timeout ≠ 0 ∧ s.written = [timeoutFrame req text]
  | CallPC.sendCalled, WaitPC.recvCalled =>
    timeout = 0 ∧ s.h = req.h ∧ s.written = [] ∧
      (req.svc.call req.mtype req.argv).isSome = true
  | CallPC.sendCalled, WaitPC.selecting =>
    timeout ≠ 0 ∧ s.h = req.h ∧ s.written = [] ∧
      (req.svc.call req.mtype req.argv).isSome = true
  | CallPC.sendCalled, WaitPC.timedOut =>
    timeout ≠ 0 ∧ s.h = req.h ∧ s.written = [] ∧
      (req.svc.call req.mtype req.argv).isSome = true
  | CallPC.sendCalled, WaitPC.returned =>
    timeout ≠ 0 ∧ s.written = [timeoutFrame req text] ∧
      (req.svc.call req.mtype req.argv).isSome = true
  | CallPC.responding, WaitPC.recvSent =>
    s.h = req.h ∧ s.written = [] ∧ (req.svc.call req.mtype req.argv).isSome = true
  | CallPC.sendSent, WaitPC.recvSent =>
    s.written = (methodFrame req).toList ∧ (req.svc.call req.mtype req.argv).isSome = true
  | CallPC.finished, WaitPC.returned =>
    s.written = (methodFrame req).toList ∧ (req.svc.call req.mtype req.argv).isSome = true
  | _, _ => False

/-- The `select` of `handleRequest` has taken the timer case. -/
def observedTimeout {Val : Type} (s : Handling Val) : Prop :=
  s.wait = WaitPC.timedOut ∨
    (s.wait = WaitPC.returned ∧ (s.call = CallPC.calling ∨ s.call = CallPC.sendCalled))

/-- The body of `handleRequest` has received from `called`. -/
def observedCompletion {Val : Type} (s : Handling Val) : Prop :=
  s.call = CallPC.responding ∨ s.call = CallPC.sendSent ∨ s.call = CallPC.finished

end rpc

/-! # Service registration and handshake (`server.go`, `codec/codec.go`) -/

namespace codec

/-- The type `Type` of codec tags, a Go `string`. -/
abbrev CodecType := String

def GobType : CodecType := "application/gob"

def JsonType : CodecType := "application/json"

/-- A constructor `func(io.ReadWriteCloser) Codec`: the codec that reads on from
the stream state of the connection it wraps. -/
abbrev NewCodecFunc (σ Val : Type) := Codec σ Val

/-- The map `NewCodecFuncMap` as `init` leaves it: the one entry `GobType`, whose
constructor `NewGobCodec` is given. -/
def NewCodecFuncMap {σ Val : Type} (NewGobCodec : NewCodecFunc σ Val) :
    CodecType → Option (NewCodecFunc σ Val) :=
  fun t => if t = GobType then some NewGobCodec else none

end codec

namespace rpc

open codec

/-- The library call `m.LoadOrStore(key, value)` of `sync.Map`: the value already
stored under the key and `true`, or else the given value, now stored, and
`false`. -/
def LoadOrStore {α : Type} (m : String → Option α) (key : String) (value : α) :
    (α × Bool) × (String → Option α) :=
  match m key with
  | some actual => ((actual, true), m)
  | none => ((value, false), fun k => if k = key then some value else m k)

/-- The method `Register`: the error returned (`none` for nil) and the server
left behind. The function `newService`, which builds the service descriptor of a
receiver, is declared in a file that is not among the sources and is given. -/
def Server.Register {Val R : Type} (server : Server Val) (newService : R → service Val)
    (rcvr : R) : Option String × Server Val :=
  let s := newService rcvr
  match LoadOrStore server.serviceMap s.name s with
  | ((_, true), m) => (some ("rpc: service already defined: " ++ s.name), ⟨m⟩)
  | ((_, false), m) => (none, ⟨m⟩)

def MagicNumber : Int := 0x3bef5c

/-- The struct `Option` of `server.go`. -/
structure ConnOption where
  MagicNumber : Int
  CodecType : CodecType
  ConnectTimeout : Int
  HandleTimeout : Int
  deriving DecidableEq, Repr

/-- How a call of `ServeConn` ends: it returns after logging an options error, an
invalid magic number or an invalid codec type, or it runs the serve loop, whose
exchanges are recorded. -/
inductive Served (Val : Type) where
  | optionsError (err : String)
  | invalidMagic (n : Int)
  | invalidCodec (t : CodecType)
  | serving (exchanges : List (Exchange Val))

/-- The headers read and frames written on the connection by a `ServeConn`. -/
def Served.exchanges {Val : Type} : Served Val → List (Exchange Val)
  | Served.serving exchanges => exchanges
  | _ => []

/-- The method `ServeConn`: `funcMap` is the value of `codec.NewCodecFuncMap`,
`decoded` the result of decoding the `Option` from the connection, `st` the
stream state after it; `text`, `scheds` and `fuel` are passed to the serve
loop. -/
def Server.ServeConn {σ Val : Type} (server : Server Val)
    (funcMap : CodecType → Option (NewCodecFunc σ Val)) (decoded : Except String ConnOption)
    (st : σ) (text : String) (scheds : Nat → List Event) (fuel : Nat) : Served Val :=
  match decoded with
  | Except.error err => Served.optionsError err
  | Except.ok opt =>
    if opt.MagicNumber ≠ MagicNumber then Served.invalidMagic opt.MagicNumber
    else
      match funcMap opt.CodecType with
      | none => Served.invalidCodec opt.CodecType
      | some f => Served.serving (server.serveCodec f opt.HandleTimeout text scheds fuel st)

end rpc

/-! # Trie router (`gee/tire.go`, `gee/router.go`) -/

namespace gee

/-- Outcome of a Go call that may panic. -/
inductive Run (α : Type) where
  | panic
  | done (a : α)

/-- Sequencing of two calls: a panic of the first ends the run. -/
def Run.andThen {α β : Type} : Run α → (α → Run β) → Run β
  | Run.panic, _ => Run.panic
  | Run.done a, f => f a

/-- The library call `strings.Split(s, "/")`, on the characters of `s`. -/
def splitSlash : List Char → List (List Char)
  | [] => [[]]
  | c :: cs =>
    if c = '/' then [] :: splitSlash cs
    else
      match splitSlash cs with
      | [] => [[c]]
      | item :: items => (c :: item) :: items

/-- The loop of `parsePattern` over the items of the split. -/
def parseItems : List String → List String
  | [] => []
  | item :: vs =>
    if item ≠ "" then
      if item.data.head? = some '*' then [item] else item :: parseItems vs
    else parseItems vs

def parsePattern (pattern : String) : List String :=
  parseItems ((splitSlash pattern.data).map String.mk)

/-- The struct `node`; the pointers `children` own their nodes, so the trie is a
tree. -/
inductive node where
  | mk (pattern : String) (part : String) (children : List node) (isWild : Bool)

def node.pattern : node → String
  | node.mk pattern _ _ _ => pattern

def node.part : node → String
  | node.mk _ part _ _ => part

def node.children : node → List node
  | node.mk _ _ children _ => children

def node.isWild : node → Bool
  | node.mk _ _ _ isWild => isWild

/-- The test made by `matchChild` and `matchChildren` on a child. -/
def node.matches (part : String) (child : node) : Bool :=
  decide (child.part = part) || child.isWild

def node.matchChild (n : node) (part : String) : Option node :=
  n.children.find? (node.matches part)

def node.matchChildren (n : node) (part : String) : List node :=
  n.children.filter (node.matches part)

/-- The children after the node returned by `matchChild` has been changed in
place into `child`. -/
def replaceMatched (part : String) (child : node) : List node → List node
  | [] => []
  | c :: cs => if node.matches part c then child :: cs else c :: replaceMatched part child cs

/-- The method `insert` with `fuel` levels of recursion left; an index out of
range is a panic. -/
def node.insertAux (pattern : String) (parts : List String) :
    Nat → node → Nat → Run node
  | fuel, n, height =>
    if parts.length = height then
      Run.done (node.mk pattern n.part n.children n.isWild)
    else
      match fuel with
      | 0 => Run.panic
      | fuel + 1 =>
        match parts.get? height with
        | none => Run.panic
        | some part =>
          match n.matchChild part with
          | some child =>
            (node.insertAux pattern parts fuel child (height + 1)).andThen fun child1 =>
              Run.done (node.mk n.pattern n.part (replaceMatched part child1 n.children) n.isWild)
          | none =>
            match part.data with
            | [] => Run.panic
            | c :: _ =>
              (node.insertAux pattern parts fuel
                (node.mk "" part [] (decide (c = ':') || decide (c = '*')))
                (height + 1)).andThen fun child1 =>
                Run.done (node.mk n.pattern n.part (n.children ++ [child1]) n.isWild)

/-- The method `insert`: it recurses `len(parts) - height` levels deep. -/
def node.insert (n : node) (pattern : String) (parts : List String) (height : Nat) :
    Run node :=
  node.insertAux pattern parts (parts.length - height) n height

/-- The first result of the `range` loop of `search` that is not nil; a panic on
the way ends the loop. -/
def firstFound : List (Run (Option node)) → Run (Option node)
  | [] => Run.done none
  | Run.panic :: _ => Run.panic
  | Run.done (some result) :: _ => Run.done (some result)
  | Run.done none :: rest => firstFound rest

/-- The method `search` with `fuel` levels of recursion left. -/
def node.searchAux (parts : List String) : Nat → node → Nat → Run (Option node)
  | fuel, n, height =>
    if parts.length = height ∨ n.part.data.head? = some '*' then
      if n.pattern = "" then Run.done none else Run.done (some n)
    else
      match fuel with
      | 0 => Run.panic
      | fuel + 1 =>
        match parts.get? height with
        | none => Run.panic
        | some part =>
          firstFound ((n.matchChildren part).map fun child =>
            node.searchAux parts fuel child (height + 1))

/-- The method `search`: it recurses at most `len(parts) - height` levels deep. -/
def node.search (n : node) (parts : List String) (height : Nat) : Run (Option node) :=
  node.searchAux parts (parts.length - height) n height

mutual

/-- The method `travel`: the nodes appended to the list, in order. -/
def node.travel : node → List node
  | node.mk pattern part children isWild =>
    (if pattern ≠ "" then [node.mk pattern part children isWild] else []) ++
      travelChildren children

/-- The `range` loop of `travel` over the children. -/
def travelChildren : List node → List node
  | [] => []
  | child :: rest => child.travel ++ travelChildren rest

end

/-- The struct `router`, with handlers of type `H`; both Go maps are lookup
functions. -/
structure router (H : Type) where
  roots : String → Option node
  handlers : String → Option H

def newRouter (H : Type) : router H :=
  { roots := fun _ => none, handlers := fun _ => none }

def router.addRoute {H : Type} (r : router H) (method : String) (pattern : String)
    (handler : H) : Run (router H) :=
  let parts := parsePattern pattern
  let key := method ++ "-" ++ pattern
  let root : node :=
    match r.roots method with
    | some root => root
    | none => node.mk "" "" [] false
  (root.insert pattern parts 0).andThen fun root1 =>
    Run.done
      { roots := fun m => if m = method then some root1 else r.roots m,
        handlers := fun k => if k = key then some handler else r.handlers k }

/-- A Go `map[string]string`. -/
abbrev Params := String → Option String

/-- The loop of `getRoute` over the parts of the pattern of the node found, from
the part at position `index` on. -/
def bindParams (searchParts : List String) : List String → Nat → Params → Run Params
  | [], _, params => Run.done params
  | part :: rest, index, params =>
    match part.data with
    | [] => Run.panic
    | c :: name =>
      let bound : Run Params :=
        if c = ':' then
          match searchParts.get? index with
          | none => Run.panic
          | some v => Run.done fun k => if k = String.mk name then some v else params k
        else Run.done params
      bound.andThen fun params1 =>
        if c = '*' ∧ 1 < part.data.length then
          if index ≤ searchParts.length then
            Run.done fun k =>
              if k = String.mk name then some ("/".intercalate (searchParts.drop index))
              else params1 k
          else Run.panic
        else bindParams searchParts rest (index + 1) params1

/-- The method `getRoute`: `none` stands for the results `(nil, nil)`. -/
def router.getRoute {H : Type} (r : router H) (method : String) (path : String) :
    Run (Option (node × Params)) :=
  let searchParts := parsePattern path
  match r.roots method with
  | none => Run.done none
  | some root =>
    (root.search searchParts 0).andThen fun found =>
      match found with
      | none => Run.done none
      | some n =>
        (bindParams searchParts (parsePattern n.pattern) 0 (fun _ => none)).andThen
          fun params => Run.done (some (n, params))

/-- The method `getRoutes`; a nil slice is the empty list. -/
def router.getRoutes {H : Type} (r : router H) (method : String) : List node :=
  match r.roots method with
  | none => []
  | some root => root.travel

/-- A sequence of `addRoute` calls, each given as method, pattern and handler. -/
def router.addRoutes {H : Type} : List (String × String × H) → router H → Run (router H)
  | [], r => Run.done r
  | (method, pattern, handler) :: rest, r =>
    (r.addRoute method pattern handler).andThen fun r1 => router.addRoutes rest r1

/-- The value of a run that did not panic. -/
def Run.toOption {α : Type} : Run α → Option α
  | Run.panic => none
  | Run.done a => some a

/-- The patterns of the nodes listed by `getRoutes`. -/
def router.patterns {H : Type} (r : router H) (method : String) : List String :=
  (r.getRoutes method).map node.pattern

mutual

/-- Every node of the trie that carries a pattern sits at the depth given by the
number of parts of that pattern; `d` is the depth of the node. -/
def node.depthOk : node → Nat → Prop
  | node.mk pattern _ children _, d =>
    (pattern ≠ "" → (parsePattern pattern).length = d) ∧ childrenDepthOk children (d + 1)

/-- The property `depthOk` for each node of a list of children. -/
def childrenDepthOk : List node → Nat → Prop
  | [], _ => True
  | child :: rest, d => child.depthOk d ∧ childrenDepthOk rest d

end

end gee

/-! # Theorems -/

namespace xclient

theorem wrapInt_of_le {x : Int} (h0 : 0 ≤ x) (h1 : x ≤ maxInt) : wrapInt x = x := by
  unfold wrapInt
  unfold maxInt at h1
  have h : (x + 2 ^ 63) % 2 ^ 64 = x + 2 ^ 63 := by
    apply Int.emod_eq_of_lt <;> omega
  omega

theorem sliceIndex_ofNat (xs : List String) (i : Nat) (h : i < xs.length) :
    sliceIndex xs (i : Int) = some (xs.get ⟨i, h⟩) := by
  unfold sliceIndex
  have h1 : (0 : Int) ≤ (i : Int) ∧ (i : Int) < (xs.length : Int) := by omega
  rw [if_pos h1]
  simp [List.get?_eq_get h]

/-- One round-robin `Get` away from the overflow boundary. -/
theorem Get_roundRobin (d : MultiServersDiscovery) (c : Nat) (hc : d.index = (c : Int))
    (hpos : 0 < d.servers.length) (hmax : (c : Int) < maxInt) :
    d.Get RoundRobinSelect =
      (Result.ok (d.servers.get ⟨c % d.servers.length, Nat.mod_lt _ hpos⟩),
        { d with index := (((c + 1) % d.servers.length : Nat) : Int) }) := by
  unfold MultiServersDiscovery.Get
  have hn : ¬ ((d.servers.length : Int) = 0) := by omega
  have hm : ¬ (RoundRobinSelect = RandomSelect) := by decide
  simp only [hn, hm, if_false, if_true]
  have e1 : d.index.tmod (d.servers.length : Int) = ((c % d.servers.length : Nat) : Int) := by
    rw [hc]; exact (Int.ofNat_tmod c d.servers.length).symm
  have e2 : (wrapInt (d.index + 1)).tmod (d.servers.length : Int)
      = (((c + 1) % d.servers.length : Nat) : Int) := by
    rw [hc, wrapInt_of_le (by omega) (by omega)]
    exact (Int.ofNat_tmod (c + 1) d.servers.length).symm
  rw [e1, e2, sliceIndex_ofNat _ _ (Nat.mod_lt _ hpos)]

/-- Outcomes of `k` consecutive round-robin calls started at cursor `c`. -/
theorem consecutiveGets_roundRobin (k : Nat) :
    ∀ (d : MultiServersDiscovery) (c : Nat) (hpos : 0 < d.servers.length),
      d.index = (c : Int) → (c : Int) < maxInt → (d.servers.length : Int) ≤ maxInt →
      (consecutiveGets RoundRobinSelect k d).1 =
        (List.range k).map (fun j =>
          Result.ok (d.servers.get ⟨(c + j) % d.servers.length, Nat.mod_lt _ hpos⟩)) := by
  induction k with
  | zero => intro d c hpos _ _ _; rfl
  | succ k ih =>
    intro d c hpos hc hmax hlen
    have hstep := Get_roundRobin d c hc hpos hmax
    have hlt : (c + 1) % d.servers.length < d.servers.length := Nat.mod_lt _ hpos
    have hnext := ih { d with index := (((c + 1) % d.servers.length : Nat) : Int) }
      ((c + 1) % d.servers.length) hpos rfl (by omega) hlen
    simp only [consecutiveGets, hstep, hnext, List.range_succ_eq_map, List.map_cons,
      List.map_map, Nat.add_zero]
    refine congrArg _ (List.map_congr_left ?_)
    intro j _
    simp only [Function.comp_apply]
    have e : ((c + 1) % d.servers.length + j) % d.servers.length
        = (c + (j + 1)) % d.servers.length := by
      rw [Nat.mod_add_mod, Nat.add_assoc, Nat.add_comm 1 j]
    simp only [e]

/-- The positions `(c + j) mod n` for `j < n` are the positions `0 .. n-1`, each once. -/
theorem cyclic_positions_perm (c n : Nat) (hpos : 0 < n) :
    ((List.range n).map (fun j => (c + j) % n)).Perm (List.range n) := by
  have hnodup : ((List.range n).map (fun j => (c + j) % n)).Nodup := by
    refine List.Nodup.map_on ?_ (List.nodup_range n)
    intro a ha b hb hab
    rw [List.mem_range] at ha hb
    have h1 : a ≡ b [MOD n] := Nat.ModEq.add_left_cancel' c hab
    exact Nat.ModEq.eq_of_lt_of_lt h1 ha hb
  have hsub : (List.range n).map (fun j => (c + j) % n) ⊆ List.range n := by
    intro x hx
    rw [List.mem_map] at hx
    obtain ⟨j, _, rfl⟩ := hx
    exact List.mem_range.mpr (Nat.mod_lt _ hpos)
  exact (List.subperm_of_subset hnodup hsub).perm_of_length_le (by simp)

/-- State after `k + 1` consecutive round-robin calls started at cursor `c`. -/
theorem consecutiveGets_roundRobin_state (k : Nat) :
    ∀ (d : MultiServersDiscovery) (c : Nat), 0 < d.servers.length →
      d.index = (c : Int) → (c : Int) < maxInt → (d.servers.length : Int) ≤ maxInt →
      (consecutiveGets RoundRobinSelect (k + 1) d).2 =
        { d with index := (((c + (k + 1)) % d.servers.length : Nat) : Int) } := by
  induction k with
  | zero =>
    intro d c hpos hc hmax _
    simp only [consecutiveGets, Get_roundRobin d c hc hpos hmax, Nat.zero_add]
  | succ k ih =>
    intro d c hpos hc hmax hlen
    have hstep := Get_roundRobin d c hc hpos hmax
    have hlt : (c + 1) % d.servers.length < d.servers.length := Nat.mod_lt _ hpos
    have hnext := ih { d with index := (((c + 1) % d.servers.length : Nat) : Int) }
      ((c + 1) % d.servers.length) hpos rfl (by omega) hlen
    have e : ((c + 1) % d.servers.length + (k + 1)) % d.servers.length
        = (c + (k + 1 + 1)) % d.servers.length := by
      rw [Nat.mod_add_mod, Nat.add_assoc, Nat.add_comm 1 (k + 1)]
    rw [consecutiveGets, hstep]
    simp only [hnext, e]

theorem copy_replicate (xs : List String) :
    copy (List.replicate xs.length "") xs = xs := by
  simp [copy]

theorem Rand.Intn_pos (r : Rand) (n : Int) (hn : 0 < n) :
    r.Intn n = some ((r.src r.pos : Int) % n, { r with pos := r.pos + 1 }) := by
  unfold Rand.Intn
  rw [if_neg (by omega)]

/-- A random `Get` on a non-empty list returns one of its elements. -/
theorem Get_random (d : MultiServersDiscovery) (hne : d.servers ≠ []) :
    ∃ s ∈ d.servers, (d.Get RandomSelect).1 = Result.ok s := by
  have hpos : 0 < d.servers.length := List.length_pos.mpr hne
  have hn : ¬ ((d.servers.length : Int) = 0) := by omega
  have hlt : (d.r.src d.r.pos) % d.servers.length < d.servers.length := Nat.mod_lt _ hpos
  have e : ((d.r.src d.r.pos : Int) % (d.servers.length : Int))
      = (((d.r.src d.r.pos) % d.servers.length : Nat) : Int) := by
    simp
  refine ⟨d.servers.get ⟨_, hlt⟩, List.get_mem _ _ _, ?_⟩
  unfold MultiServersDiscovery.Get
  simp only [hn, if_false, if_true, Rand.Intn_pos d.r _ (by omega : (0 : Int) < d.servers.length),
    e, sliceIndex_ofNat _ _ hlt]

/-- A round-robin `Get` on a non-empty list with a non-negative cursor returns
one of the list's elements. -/
theorem Get_roundRobin_mem (d : MultiServersDiscovery) (hne : d.servers ≠ [])
    (h0 : 0 ≤ d.index) : ∃ s ∈ d.servers, (d.Get RoundRobinSelect).1 = Result.ok s := by
  have hpos : 0 < d.servers.length := List.length_pos.mpr hne
  have hn : ¬ ((d.servers.length : Int) = 0) := by omega
  have hm : ¬ (RoundRobinSelect = RandomSelect) := by decide
  have hlt : d.index.toNat % d.servers.length < d.servers.length := Nat.mod_lt _ hpos
  have e : d.index.tmod (d.servers.length : Int)
      = ((d.index.toNat % d.servers.length : Nat) : Int) := by
    conv_lhs => rw [← Int.toNat_of_nonneg h0]
    exact (Int.ofNat_tmod _ _).symm
  refine ⟨d.servers.get ⟨_, hlt⟩, List.get_mem _ _ _, ?_⟩
  unfold MultiServersDiscovery.Get
  simp only [hn, hm, if_false, if_true, e, sliceIndex_ofNat _ _ hlt]

/-- The constructor never panics and draws a cursor in `[0, math.MaxInt32 - 1)`. -/
theorem NewMultiServerDiscovery_index (seeded : Rand) (servers : List String) :
    ∃ d, NewMultiServerDiscovery seeded servers = some d ∧ d.servers = servers ∧
      0 ≤ d.index ∧ d.index < MaxInt32 - 1 ∧ d.index < maxInt := by
  have hpos : (0 : Int) < MaxInt32 - 1 := by decide
  have hle : MaxInt32 - 1 ≤ maxInt := by decide
  have h1 : 0 ≤ (seeded.src seeded.pos : Int) % (MaxInt32 - 1) :=
    Int.emod_nonneg _ (by omega)
  have h2 : (seeded.src seeded.pos : Int) % (MaxInt32 - 1) < MaxInt32 - 1 :=
    Int.emod_lt_of_pos _ hpos
  refine ⟨{ r := { seeded with pos := seeded.pos + 1 }, servers := servers,
            index := (seeded.src seeded.pos : Int) % (MaxInt32 - 1) }, ?_, rfl, h1, h2, ?_⟩
  · unfold NewMultiServerDiscovery
    rw [Rand.Intn_pos seeded _ hpos]
  · exact lt_of_lt_of_le h2 hle

theorem Get_empty (d : MultiServersDiscovery) (mode : SelectMode) (he : d.servers = []) :
    (d.Get mode).1 = Result.error "rpc discovery: no available servers" := by
  unfold MultiServersDiscovery.Get
  simp [he]

theorem Get_other_mode (d : MultiServersDiscovery) (mode : SelectMode) (hne : d.servers ≠ [])
    (h1 : mode ≠ RandomSelect) (h2 : mode ≠ RoundRobinSelect) :
    (d.Get mode).1 = Result.error "rpc discovery: not supported select mode" := by
  have hpos : 0 < d.servers.length := List.length_pos.mpr hne
  have hn : ¬ ((d.servers.length : Int) = 0) := by omega
  unfold MultiServersDiscovery.Get
  simp only [hn, h1, h2, if_false]

/-- A `Get` in any mode leaves the address list as it was and keeps the cursor
inside `[0, math.MaxInt64)`. -/
theorem Get_index_range (d : MultiServersDiscovery) (mode : SelectMode)
    (h0 : 0 ≤ d.index) (hmax : d.index < maxInt) (hlen : (d.servers.length : Int) ≤ maxInt) :
    (d.Get mode).2.servers = d.servers ∧ 0 ≤ (d.Get mode).2.index ∧
      (d.Get mode).2.index < maxInt := by
  unfold MultiServersDiscovery.Get
  dsimp only
  split
  · exact ⟨rfl, h0, hmax⟩
  · rename_i hn
    split
    · cases d.r.Intn (d.servers.length : Int) with
      | none => exact ⟨rfl, h0, hmax⟩
      | some p =>
        dsimp only
        cases sliceIndex d.servers p.1 <;> exact ⟨rfl, h0, hmax⟩
    · split
      · cases sliceIndex d.servers (d.index.tmod (d.servers.length : Int)) with
        | none => exact ⟨rfl, h0, hmax⟩
        | some s0 =>
          dsimp only
          have hw : wrapInt (d.index + 1) = d.index + 1 :=
            wrapInt_of_le (by omega) (by omega)
          have hpos : (0 : Int) < (d.servers.length : Int) := by omega
          rw [hw, Int.tmod_eq_emod (by omega) (by omega)]
          have h1 := Int.emod_nonneg (d.index + 1) (ne_of_gt hpos)
          have h2 := Int.emod_lt_of_pos (d.index + 1) hpos
          exact ⟨rfl, h1, by omega⟩
      · exact ⟨rfl, h0, hmax⟩

/-- Every call keeps the cursor inside `[0, math.MaxInt64)`, the address list
having a length that fits a Go `int`. -/
theorem runOps_index_range (ops : List Op) :
    ∀ d : MultiServersDiscovery, 0 ≤ d.index → d.index < maxInt →
      (d.servers.length : Int) ≤ maxInt →
      (∀ L, Op.update L ∈ ops → (L.length : Int) ≤ maxInt) →
      0 ≤ (runOps ops d).index ∧ (runOps ops d).index < maxInt ∧
        ((runOps ops d).servers.length : Int) ≤ maxInt := by
  induction ops with
  | nil => intro d h0 hmax hlen _; exact ⟨h0, hmax, hlen⟩
  | cons op ops ih =>
    intro d h0 hmax hlen hops
    have hrest : ∀ L, Op.update L ∈ ops → (L.length : Int) ≤ maxInt :=
      fun L hL => hops L (List.mem_cons_of_mem _ hL)
    show 0 ≤ (runOps ops (Op.run d op)).index ∧ _
    cases op with
    | refresh => exact ih d h0 hmax hlen hrest
    | update L =>
      exact ih (d.Update L).2 h0 hmax (hops L (List.mem_cons_self _ _)) hrest
    | get mode =>
      obtain ⟨h1, h2, h3⟩ := Get_index_range d mode h0 hmax hlen
      exact ih (d.Get mode).2 h2 h3 (by rw [h1]; exact hlen) hrest
    | getAll => exact ih d h0 hmax hlen hrest

/-- The cursor `math.MaxInt64` is outside the range the package keeps the
cursor in (`runOps_index_range`): from it the increment `index + 1` wraps to the
most negative int, the stored cursor becomes `-2` and the next call indexes the
list at `-2`. This is why the bound `index < math.MaxInt64` is carried along. -/
theorem Get_roundRobin_maxInt_cursor :
    (consecutiveGets RoundRobinSelect 3
      { r := { src := fun _ => 0, pos := 0 }, servers := ["A", "B", "C"], index := maxInt }).1
      = [Result.ok "B", Result.panic, Result.panic] ∧
    (({ r := { src := fun _ => 0, pos := 0 }, servers := ["A", "B", "C"],
        index := maxInt } : MultiServersDiscovery).Get RoundRobinSelect).2.index = -2 := by
  decide

/-- C1: for a non-empty address list of length `n` that is not updated in
between and a starting cursor `c >= 0`, `n` consecutive round-robin `Get` calls
all succeed, the `j`-th of them returns the element at position `(c + j) mod n`,
these positions are the positions `0 .. n-1` each taken exactly once, one call
moves the cursor to `(c + 1) mod n` and `j + 1` calls move it to
`(c + j + 1) mod n`, leaving the list untouched. The bounds `c < math.MaxInt64`
and `n <= math.MaxInt64` hold of every discovery of the package: the cursor the
constructor draws is in `[0, math.MaxInt32 - 1)`, and every `Refresh`, `Update`,
`Get` in any mode and `GetAll` keeps the cursor in `[0, math.MaxInt64)`. -/
theorem roundRobin_visits_each_once (d : MultiServersDiscovery)
    (hpos : 0 < d.servers.length) (h0 : 0 ≤ d.index) (hmax : d.index < maxInt)
    (hlen : (d.servers.length : Int) ≤ maxInt) :
    (consecutiveGets RoundRobinSelect d.servers.length d).1 =
        (List.range d.servers.length).map (fun j =>
          Result.ok (d.servers.get
            ⟨(d.index.toNat + j) % d.servers.length, Nat.mod_lt _ hpos⟩)) ∧
    ((List.range d.servers.length).map
        (fun j => (d.index.toNat + j) % d.servers.length)).Perm
      (List.range d.servers.length) ∧
    (d.Get RoundRobinSelect).2.index = (d.index + 1) % (d.servers.length : Int) ∧
    (∀ j, (consecutiveGets RoundRobinSelect (j + 1) d).2 =
      { d with index := (d.index + ((j : Int) + 1)) % (d.servers.length : Int) }) ∧
    (∀ seeded : Rand, ∃ d0, NewMultiServerDiscovery seeded d.servers = some d0 ∧
      d0.servers = d.servers ∧ 0 ≤ d0.index ∧ d0.index < maxInt) ∧
    (∀ ops : List Op, (∀ L, Op.update L ∈ ops → (L.length : Int) ≤ maxInt) →
      0 ≤ (runOps ops d).index ∧ (runOps ops d).index < maxInt) ∧
    (∀ (seeded : Rand) (ops : List Op),
      (∀ L, Op.update L ∈ ops → (L.length : Int) ≤ maxInt) →
      ∃ d0, NewMultiServerDiscovery seeded d.servers = some d0 ∧
        0 ≤ (runOps ops d0).index ∧ (runOps ops d0).index < maxInt) := by
  have hc : d.index = ((d.index.toNat : Nat) : Int) := (Int.toNat_of_nonneg h0).symm
  have hmax1 : ((d.index.toNat : Nat) : Int) < maxInt := by rw [← hc]; exact hmax
  refine ⟨consecutiveGets_roundRobin _ d _ hpos hc hmax1 hlen,
    cyclic_positions_perm _ _ hpos, ?_, ?_, ?_, ?_, ?_⟩
  · rw [Get_roundRobin d _ hc hpos hmax1]
    simp only [Int.natCast_mod, Nat.cast_add, Nat.cast_one, ← hc]
  · intro j
    rw [consecutiveGets_roundRobin_state j d _ hpos hc hmax1 hlen]
    simp only [Int.natCast_mod, Nat.cast_add, Nat.cast_one, ← hc]
  · intro seeded
    obtain ⟨d0, h1, h2, h3, _, h5⟩ := NewMultiServerDiscovery_index seeded d.servers
    exact ⟨d0, h1, h2, h3, h5⟩
  · intro ops hops
    obtain ⟨h1, h2, _⟩ := runOps_index_range ops d h0 hmax hlen hops
    exact ⟨h1, h2⟩
  · intro seeded ops hops
    obtain ⟨d0, h1, h2, h3, _, h5⟩ := NewMultiServerDiscovery_index seeded d.servers
    obtain ⟨h6, h7, _⟩ := runOps_index_range ops d0 h3 h5 (by rw [h2]; exact hlen) hops
    exact ⟨d0, h1, h6, h7⟩

/-- C1, instance: servers A, B, C and cursor 7 give B, C, A. -/
theorem roundRobin_visits_each_once_witness :
    (0 : Int) ≤ 7 ∧ (7 : Int) < maxInt ∧
    (consecutiveGets RoundRobinSelect 3
      { r := { src := fun _ => 0, pos := 0 }, servers := ["A", "B", "C"], index := 7 }).1
      = [Result.ok "B", Result.ok "C", Result.ok "A"] ∧
    [(7 + 0) % 3, (7 + 1) % 3, (7 + 2) % 3].Perm [0, 1, 2] :=
  have h := roundRobin_visits_each_once
    { r := { src := fun _ => 0, pos := 0 }, servers := ["A", "B", "C"], index := 7 }
    (by decide) (by decide) (by decide) (by decide)
  ⟨by decide, by decide, h.1, h.2.1⟩

/-- C2: `Get` returns the no-available-servers error whenever the address list
is empty, whatever the mode; it succeeds exactly when the list is non-empty and
the mode is `RandomSelect` or `RoundRobinSelect`, and returns an error exactly
when the list is empty or the mode is neither of the two; and after `Update(L)`
with a non-empty `L` a `Get` in either mode succeeds at once with an element of
`L`. The cursor of a discovery is non-negative. -/
theorem Get_fails_iff (d : MultiServersDiscovery) (mode : SelectMode) (h0 : 0 ≤ d.index) :
    (d.servers = [] →
      (d.Get mode).1 = Result.error "rpc discovery: no available servers") ∧
    ((∃ s, (d.Get mode).1 = Result.ok s) ↔
      (d.servers ≠ [] ∧ (mode = RandomSelect ∨ mode = RoundRobinSelect))) ∧
    ((∃ msg, (d.Get mode).1 = Result.error msg) ↔
      (d.servers = [] ∨ (mode ≠ RandomSelect ∧ mode ≠ RoundRobinSelect))) ∧
    (∀ L : List String, L ≠ [] → (mode = RandomSelect ∨ mode = RoundRobinSelect) →
      (d.Update L).1 = none ∧ ∃ s ∈ L, ((d.Update L).2.Get mode).1 = Result.ok s) := by
  have hsucc : d.servers ≠ [] → (mode = RandomSelect ∨ mode = RoundRobinSelect) →
      ∃ s, (d.Get mode).1 = Result.ok s := by
    intro hne hm
    rcases hm with rfl | rfl
    · obtain ⟨s, _, hs⟩ := Get_random d hne
      exact ⟨s, hs⟩
    · obtain ⟨s, _, hs⟩ := Get_roundRobin_mem d hne h0
      exact ⟨s, hs⟩
  refine ⟨Get_empty d mode, ⟨?_, fun h => hsucc h.1 h.2⟩, ⟨?_, ?_⟩, ?_⟩
  · rintro ⟨s, hs⟩
    by_cases he : d.servers = []
    · rw [Get_empty d mode he] at hs
      cases hs
    · refine ⟨he, ?_⟩
      by_contra hm
      push_neg at hm
      rw [Get_other_mode d mode he hm.1 hm.2] at hs
      cases hs
  · rintro ⟨msg, hmsg⟩
    by_cases he : d.servers = []
    · exact Or.inl he
    · refine Or.inr ?_
      by_contra hm
      have hm1 : mode = RandomSelect ∨ mode = RoundRobinSelect := by
        by_cases h1 : mode = RandomSelect
        · exact Or.inl h1
        · by_cases h2 : mode = RoundRobinSelect
          · exact Or.inr h2
          · exact absurd ⟨h1, h2⟩ hm
      obtain ⟨s, hs⟩ := hsucc he hm1
      rw [hs] at hmsg
      cases hmsg
  · rintro (he | ⟨h1, h2⟩)
    · exact ⟨_, Get_empty d mode he⟩
    · by_cases he : d.servers = []
      · exact ⟨_, Get_empty d mode he⟩
      · exact ⟨_, Get_other_mode d mode he h1 h2⟩
  · intro L hL hm
    refine ⟨rfl, ?_⟩
    rcases hm with rfl | rfl
    · exact Get_random (d.Update L).2 hL
    · exact Get_roundRobin_mem (d.Update L).2 hL h0

/-- C2, instance: an empty discovery with cursor 5 fails, and after
`Update [A, B]` the round-robin `Get` returns an element of the new list. -/
theorem Get_fails_iff_witness :
    (0 : Int) ≤ 5 ∧
    (({ r := { src := fun _ => 0, pos := 0 }, servers := [], index := 5 } :
        MultiServersDiscovery).Get RoundRobinSelect).1
      = Result.error "rpc discovery: no available servers" ∧
    ∃ s ∈ ["A", "B"],
      ((({ r := { src := fun _ => 0, pos := 0 }, servers := [], index := 5 } :
        MultiServersDiscovery).Update ["A", "B"]).2.Get RoundRobinSelect).1 = Result.ok s :=
  have h := Get_fails_iff
    { r := { src := fun _ => 0, pos := 0 }, servers := [], index := 5 } RoundRobinSelect
    (by decide)
  ⟨by decide, h.1 rfl, (h.2.2.2 ["A", "B"] (by decide) (Or.inr rfl)).2⟩

/-- C3 (as stated, refuted): on a discovery with no address `GetAll` returns the
empty list with a nil error, not the no-available-servers error. -/
theorem GetAll_empty_succeeds :
    ({ r := { src := fun _ => 0, pos := 0 }, servers := [], index := 0 } :
        MultiServersDiscovery).GetAll = Result.ok [] ∧
    ({ r := { src := fun _ => 0, pos := 0 }, servers := [], index := 0 } :
        MultiServersDiscovery).GetAll ≠ Result.error "rpc discovery: no available servers" := by
  decide

/-- C3 (amended): `GetAll` never fails: in every state it returns a copy of the
address list with a nil error, so for an empty address set it returns the empty
list successfully. -/
theorem GetAll_returns_copy (d : MultiServersDiscovery) :
    d.GetAll = Result.ok d.servers ∧
    (d.servers = [] → d.GetAll = Result.ok []) := by
  have h : d.GetAll = Result.ok d.servers := by
    unfold MultiServersDiscovery.GetAll
    simp only [copy_replicate]
  exact ⟨h, fun he => by rw [h, he]⟩

end xclient

namespace registry

/-- The liveness test made by `aliveServers` on one entry. -/
theorem aliveStep_fst (timeout : Duration) (now : Time) (l : List (String × ServerItem)) :
    ∀ acc : List String × ServerMap,
      (l.foldl (aliveStep timeout now) acc).1 =
        acc.1 ++ (l.filter (fun e => decide (timeout = 0 ∨ now < e.2.start + timeout))).map
          Prod.fst := by
  induction l with
  | nil => intro acc; simp
  | cons e l ih =>
    intro acc
    rw [List.foldl_cons, ih]
    by_cases h : timeout = 0 ∨ now < e.2.start + timeout
    · simp [aliveStep, h, List.filter_cons]
    · simp [aliveStep, h, List.filter_cons]

theorem aliveStep_snd (timeout : Duration) (now : Time) (l : List (String × ServerItem)) :
    ∀ acc : List String × ServerMap,
      (l.foldl (aliveStep timeout now) acc).2.entries =
        acc.2.entries.filter (fun e => decide (∀ x ∈ l, x.1 = e.1 →
          (timeout = 0 ∨ now < x.2.start + timeout))) := by
  induction l with
  | nil => intro acc; simp
  | cons e l ih =>
    intro acc
    rw [List.foldl_cons, ih]
    by_cases h : timeout = 0 ∨ now < e.2.start + timeout
    · simp only [aliveStep, h, if_true]
      refine List.filter_congr ?_
      intro x _
      simp only [List.mem_cons, forall_eq_or_imp, decide_eq_decide]
      constructor
      · intro hx; exact ⟨fun _ => h, hx⟩
      · intro hx; exact hx.2
    · simp only [aliveStep, h, if_false, ServerMap.delete, List.filter_filter]
      refine List.filter_congr ?_
      intro x _
      simp only [List.mem_cons, forall_eq_or_imp, Bool.decide_and, ne_eq, decide_not,
        Bool.and_comm (decide _) (!decide _)]
      by_cases hx : x.1 = e.1
      · simp [hx, h]
      · have hx' : ¬ e.1 = x.1 := fun h' => hx h'.symm
        simp [hx, hx']

/-- With a clock that does not move during the listing the loop is a fold of its
body at that one reading. -/
theorem aliveLoop_const (timeout : Duration) (now : Time) (es : List (String × ServerItem)) :
    ∀ (k : Nat) (acc : List String × ServerMap),
      aliveLoop timeout (fun _ => now) es k acc = es.foldl (aliveStep timeout now) acc := by
  induction es with
  | nil => intro k acc; rfl
  | cons e es ih => intro k acc; rw [aliveLoop, ih, List.foldl_cons]

/-- An address is appended by the loop exactly when an entry of it passes the
test at the reading of its own iteration. -/
theorem aliveLoop_mem_fst (timeout : Duration) (clock : Nat → Time)
    (es : List (String × ServerItem)) :
    ∀ (k : Nat) (acc : List String × ServerMap) (a : String),
      a ∈ (aliveLoop timeout clock es k acc).1 ↔
        a ∈ acc.1 ∨ ∃ i s, es.get? i = some (a, s) ∧
          (timeout = 0 ∨ clock (k + i) < s.start + timeout) := by
  induction es with
  | nil => intro k acc a; simp [aliveLoop]
  | cons e es ih =>
    intro k acc a
    rw [aliveLoop, ih]
    have hstep : a ∈ (aliveStep timeout (clock k) acc e).1 ↔
        a ∈ acc.1 ∨ (a = e.1 ∧ (timeout = 0 ∨ clock k < e.2.start + timeout)) := by
      unfold aliveStep
      by_cases h : timeout = 0 ∨ clock k < e.2.start + timeout
      · simp [h]
      · simp [h]
    rw [hstep]
    constructor
    · rintro ((h | ⟨rfl, h⟩) | ⟨i, s, hi, h⟩)
      · exact Or.inl h
      · exact Or.inr ⟨0, e.2, by simp, by simpa using h⟩
      · exact Or.inr ⟨i + 1, s, by simpa using hi, by
          rw [show k + (i + 1) = k + 1 + i by omega]; exact h⟩
    · rintro (h | ⟨i, s, hi, h⟩)
      · exact Or.inl (Or.inl h)
      · cases i with
        | zero =>
          simp only [List.get?_cons_zero, Option.some.injEq] at hi
          refine Or.inl (Or.inr ⟨by rw [hi], ?_⟩)
          rw [hi]; simpa using h
        | succ i =>
          refine Or.inr ⟨i, s, by simpa using hi, ?_⟩
          rw [show k + 1 + i = k + (i + 1) by omega]; exact h

/-- An entry is left in the map by the loop exactly when no entry of its address
fails the test at the reading of its own iteration. -/
theorem aliveLoop_mem_snd (timeout : Duration) (clock : Nat → Time)
    (es : List (String × ServerItem)) :
    ∀ (k : Nat) (acc : List String × ServerMap) (x : String × ServerItem),
      x ∈ (aliveLoop timeout clock es k acc).2.entries ↔
        x ∈ acc.2.entries ∧ ∀ i s, es.get? i = some (x.1, s) →
          (timeout = 0 ∨ clock (k + i) < s.start + timeout) := by
  induction es with
  | nil => intro k acc x; simp [aliveLoop]
  | cons e es ih =>
    intro k acc x
    rw [aliveLoop, ih]
    have hstep : x ∈ (aliveStep timeout (clock k) acc e).2.entries ↔
        x ∈ acc.2.entries ∧ (x.1 = e.1 → (timeout = 0 ∨ clock k < e.2.start + timeout)) := by
      unfold aliveStep
      by_cases h : timeout = 0 ∨ clock k < e.2.start + timeout
      · simp [h]
      · simp [h, ServerMap.delete, List.mem_filter]
    rw [hstep]
    constructor
    · rintro ⟨⟨hx, h0⟩, hrest⟩
      refine ⟨hx, ?_⟩
      intro i s hi
      cases i with
      | zero =>
        simp only [List.get?_cons_zero, Option.some.injEq] at hi
        have := h0 (by rw [hi])
        rw [hi] at this; simpa using this
      | succ i =>
        have := hrest i s (by simpa using hi)
        rw [show k + 1 + i = k + (i + 1) by omega] at this; exact this
    · rintro ⟨hx, hall⟩
      refine ⟨⟨hx, ?_⟩, ?_⟩
      · intro h1
        have := hall 0 e.2 (by simp [h1])
        simpa using this
      · intro i s hi
        have := hall (i + 1) s (by simpa using hi)
        rw [show k + (i + 1) = k + 1 + i by omega] at this; exact this

/-- The addresses appended by the loop are taken from the keys visited, in the
order of the visit. -/
theorem aliveLoop_sublist (timeout : Duration) (clock : Nat → Time)
    (es : List (String × ServerItem)) :
    ∀ (k : Nat) (acc : List String × ServerMap),
      ∃ l, l.Sublist (es.map Prod.fst) ∧ (aliveLoop timeout clock es k acc).1 = acc.1 ++ l := by
  induction es with
  | nil => intro k acc; exact ⟨[], List.Sublist.refl _, by simp [aliveLoop]⟩
  | cons e es ih =>
    intro k acc
    obtain ⟨l, hl, he⟩ := ih (k + 1) (aliveStep timeout (clock k) acc e)
    rw [aliveLoop, he]
    unfold aliveStep
    by_cases h : timeout = 0 ∨ clock k < e.2.start + timeout
    · refine ⟨e.1 :: l, ?_, by simp [h]⟩
      simpa using hl.cons₂ e.1
    · refine ⟨l, ?_, by simp [h]⟩
      simpa using hl.cons e.1

theorem keys_unique (m : ServerMap) {a b : String × ServerItem}
    (ha : a ∈ m.entries) (hb : b ∈ m.entries) (h : a.1 = b.1) : a = b :=
  List.inj_on_of_nodup_map m.nodupKeys ha hb h

/-- An address is the key of one position of the map only. -/
theorem position_unique (m : ServerMap) {i j : Nat} {a : String} {s t : ServerItem}
    (hi : m.entries.get? i = some (a, s)) (hj : m.entries.get? j = some (a, t)) :
    i = j ∧ s = t := by
  have hlt : i < (m.entries.map Prod.fst).length := by
    rw [List.length_map]
    exact List.get?_eq_some.mp hi |>.1
  have h1 : (m.entries.map Prod.fst)[i]? = (m.entries.map Prod.fst)[j]? := by
    rw [List.getElem?_map, List.getElem?_map, ← List.get?_eq_getElem?,
      ← List.get?_eq_getElem?, hi, hj]
    rfl
  have hij : i = j := List.getElem?_inj hlt m.nodupKeys h1
  subst hij
  rw [hi] at hj
  simp only [Option.some.injEq, Prod.mk.injEq, true_and] at hj
  exact ⟨rfl, hj⟩

theorem ServerMap.get_eq_some_iff (m : ServerMap) (addr : String) (s : ServerItem) :
    m.get addr = some s ↔ (addr, s) ∈ m.entries := by
  unfold ServerMap.get
  constructor
  · intro h
    rw [Option.map_eq_some'] at h
    obtain ⟨e, he, hs⟩ := h
    have hm := List.mem_of_find?_eq_some he
    have hp := List.find?_some he
    simp only [decide_eq_true_eq] at hp
    have : e = (addr, s) := by
      cases e; simp only at hp hs; rw [hp, hs]
    rw [← this]; exact hm
  · intro h
    cases hf : m.entries.find? (fun e => e.1 = addr) with
    | none =>
      rw [List.find?_eq_none] at hf
      exact absurd (by simp) (hf _ h)
    | some e =>
      have hm := List.mem_of_find?_eq_some hf
      have hp := List.find?_some hf
      simp only [decide_eq_true_eq] at hp
      have : e = (addr, s) := keys_unique m hm h (by simpa using hp)
      simp [this]

theorem ServerMap.get_eq_none_iff (m : ServerMap) (addr : String) :
    m.get addr = none ↔ ∀ s, (addr, s) ∉ m.entries := by
  constructor
  · intro h s hs
    rw [(m.get_eq_some_iff addr s).mpr hs] at h
    cases h
  · intro h
    cases hg : m.get addr with
    | none => rfl
    | some s => exact absurd ((m.get_eq_some_iff addr s).mp hg) (h s)

theorem aliveServers_timeout (r : GeeRegistry) (clock : Nat → Time) :
    (r.aliveServers clock).2.timeout = r.timeout := rfl

theorem mem_sortStrings (l : List String) (a : String) : a ∈ sortStrings l ↔ a ∈ l :=
  (List.perm_insertionSort _ l).mem_iff

/-- An address is listed exactly when its entry passes the test at the reading of
the iteration that visits it. -/
theorem mem_aliveServers_clock (r : GeeRegistry) (clock : Nat → Time) (addr : String) :
    addr ∈ (r.aliveServers clock).1 ↔
      ∃ k s, r.servers.entries.get? k = some (addr, s) ∧
        (r.timeout = 0 ∨ clock k < s.start + r.timeout) := by
  simp only [GeeRegistry.aliveServers, mem_sortStrings, aliveLoop_mem_fst, List.not_mem_nil,
    false_or, Nat.zero_add]

/-- An entry is in the map after the listing exactly when it was there before and
passes the test at the reading of the iteration that visits it. -/
theorem mem_aliveServers_entries (r : GeeRegistry) (clock : Nat → Time) (addr : String)
    (s : ServerItem) :
    (addr, s) ∈ (r.aliveServers clock).2.servers.entries ↔
      ∃ k, r.servers.entries.get? k = some (addr, s) ∧
        (r.timeout = 0 ∨ clock k < s.start + r.timeout) := by
  simp only [GeeRegistry.aliveServers, aliveLoop_mem_snd, Nat.zero_add]
  constructor
  · rintro ⟨hmem, hall⟩
    obtain ⟨k, hk⟩ := List.mem_iff_get?.mp hmem
    exact ⟨k, hk, hall k s hk⟩
  · rintro ⟨k, hk, hal⟩
    refine ⟨List.get?_mem hk, ?_⟩
    intro i t hi
    obtain ⟨rfl, rfl⟩ := position_unique r.servers hi hk
    exact hal

/-- The map left behind by a listing at one clock reading holds exactly the
entries passing the test. -/
theorem aliveServers_entries (r : GeeRegistry) (now : Time) :
    (r.aliveServers (fun _ => now)).2.servers.entries =
      r.servers.entries.filter
        (fun e => decide (r.timeout = 0 ∨ now < e.2.start + r.timeout)) := by
  simp only [GeeRegistry.aliveServers, aliveLoop_const, aliveStep_snd]
  refine List.filter_congr ?_
  intro x hx
  simp only [decide_eq_decide]
  constructor
  · intro h; exact h x hx rfl
  · intro h y hy hxy
    rw [keys_unique r.servers hy hx hxy]; exact h

/-- The list returned by a listing at one clock reading is the sorted list of the
keys passing the test. -/
theorem aliveServers_list (r : GeeRegistry) (now : Time) :
    (r.aliveServers (fun _ => now)).1 =
      sortStrings ((r.servers.entries.filter
        (fun e => decide (r.timeout = 0 ∨ now < e.2.start + r.timeout))).map Prod.fst) := by
  simp only [GeeRegistry.aliveServers, aliveLoop_const, aliveStep_fst, List.nil_append]

theorem mem_aliveServers (r : GeeRegistry) (now : Time) (addr : String) :
    addr ∈ (r.aliveServers (fun _ => now)).1 ↔
      ∃ s, r.servers.get addr = some s ∧ (r.timeout = 0 ∨ now < s.start + r.timeout) := by
  rw [aliveServers_list, mem_sortStrings, List.mem_map]
  constructor
  · rintro ⟨e, he, rfl⟩
    rw [List.mem_filter] at he
    exact ⟨e.2, (r.servers.get_eq_some_iff _ _).mpr he.1, by simpa using he.2⟩
  · rintro ⟨s, hs, hal⟩
    refine ⟨(addr, s), ?_, rfl⟩
    rw [List.mem_filter]
    exact ⟨(r.servers.get_eq_some_iff _ _).mp hs, by simpa using hal⟩

theorem data_le_iff (a b : String) : a.data ≤ b.data ↔ a ≤ b := by
  rw [String.le_iff_toList_le]
  rfl

theorem sortStrings_sorted (l : List String) : (sortStrings l).Sorted (· ≤ ·) := by
  have h : (fun a b : String => a.data ≤ b.data) = (fun a b : String => a ≤ b) := by
    funext a b
    exact propext (data_le_iff a b)
  have hs : (sortStrings l).Sorted (fun a b : String => a.data ≤ b.data) := by
    haveI : IsTotal String (fun a b : String => a.data ≤ b.data) :=
      ⟨fun a b => le_total a.data b.data⟩
    haveI : IsTrans String (fun a b : String => a.data ≤ b.data) :=
      ⟨fun a b c hab hbc => le_trans hab hbc⟩
    exact List.sorted_insertionSort _ l
  rw [h] at hs
  exact hs

theorem sortStrings_perm (l : List String) : (sortStrings l).Perm l :=
  List.perm_insertionSort _ l

theorem sortStrings_eq_of_perm {l₁ l₂ : List String} (h : l₁.Perm l₂) :
    sortStrings l₁ = sortStrings l₂ :=
  List.eq_of_perm_of_sorted
    (((sortStrings_perm l₁).trans h).trans (sortStrings_perm l₂).symm)
    (sortStrings_sorted l₁) (sortStrings_sorted l₂)

theorem aliveServers_nodup (r : GeeRegistry) (clock : Nat → Time) :
    (r.aliveServers clock).1.Nodup := by
  obtain ⟨l, hl, he⟩ := aliveLoop_sublist r.timeout clock r.servers.entries 0 ([], r.servers)
  simp only [GeeRegistry.aliveServers, he, List.nil_append]
  exact (sortStrings_perm _).nodup_iff.mpr (List.Nodup.sublist hl r.servers.nodupKeys)

theorem aliveServers_get (r : GeeRegistry) (clock : Nat → Time) (addr : String) :
    (r.aliveServers clock).2.servers.get addr =
      if addr ∈ (r.aliveServers clock).1 then r.servers.get addr else none := by
  by_cases hmem : addr ∈ (r.aliveServers clock).1
  · rw [if_pos hmem]
    obtain ⟨k, s, hk, hal⟩ := (mem_aliveServers_clock r clock addr).mp hmem
    rw [(r.servers.get_eq_some_iff addr s).mpr (List.get?_mem hk), ServerMap.get_eq_some_iff,
      mem_aliveServers_entries]
    exact ⟨k, hk, hal⟩
  · rw [if_neg hmem, ServerMap.get_eq_none_iff]
    intro s hs
    rw [mem_aliveServers_entries] at hs
    obtain ⟨k, hk, hal⟩ := hs
    exact hmem ((mem_aliveServers_clock r clock addr).mpr ⟨k, s, hk, hal⟩)

/-- What a listing does with the entry at position `k`: an entry that passes the
test at the reading of its iteration is returned and kept as it is, one that
fails it is not returned and is deleted. -/
theorem aliveServers_entry (r : GeeRegistry) (clock : Nat → Time) (k : Nat) (addr : String)
    (s : ServerItem) (hk : r.servers.entries.get? k = some (addr, s)) :
    ((r.timeout = 0 ∨ clock k < s.start + r.timeout) →
      addr ∈ (r.aliveServers clock).1 ∧
        (r.aliveServers clock).2.servers.get addr = some s) ∧
    (¬ (r.timeout = 0 ∨ clock k < s.start + r.timeout) →
      addr ∉ (r.aliveServers clock).1 ∧
        (r.aliveServers clock).2.servers.get addr = none) := by
  constructor
  · intro hal
    have hmem : addr ∈ (r.aliveServers clock).1 :=
      (mem_aliveServers_clock r clock addr).mpr ⟨k, s, hk, hal⟩
    refine ⟨hmem, ?_⟩
    rw [aliveServers_get, if_pos hmem]
    exact (r.servers.get_eq_some_iff addr s).mpr (List.get?_mem hk)
  · intro hdead
    have hnot : addr ∉ (r.aliveServers clock).1 := by
      intro hmem
      obtain ⟨j, t, hj, hal⟩ := (mem_aliveServers_clock r clock addr).mp hmem
      obtain ⟨rfl, rfl⟩ := position_unique r.servers hj hk
      exact hdead hal
    refine ⟨hnot, ?_⟩
    rw [aliveServers_get, if_neg hnot]

theorem putServer_timeout (r : GeeRegistry) (addr : String) (now : Time) :
    (r.putServer addr now).timeout = r.timeout := by
  unfold GeeRegistry.putServer
  split <;> rfl

theorem putServer_entries (r : GeeRegistry) (addr : String) (now : Time) :
    (r.putServer addr now).servers.entries =
      match r.servers.get addr with
      | none => r.servers.entries ++ [(addr, { Addr := addr, start := now })]
      | some _ => r.servers.entries.map
          (fun e => if e.1 = addr then (e.1, { e.2 with start := now }) else e) := by
  unfold GeeRegistry.putServer
  split
  · next h => simp only [h, ServerMap.insertNew]
  · next s h => simp only [h, ServerMap.setStart]

/-- Lookup of the recorded address after `putServer`. -/
theorem putServer_get_self (r : GeeRegistry) (addr : String) (now : Time) :
    (r.putServer addr now).servers.get addr =
      match r.servers.get addr with
      | none => some { Addr := addr, start := now }
      | some s => some { s with start := now } := by
  cases hg : r.servers.get addr with
  | none =>
    simp only
    rw [ServerMap.get_eq_some_iff, putServer_entries, hg]
    simp
  | some s =>
    simp only
    rw [ServerMap.get_eq_some_iff, putServer_entries, hg]
    simp only [List.mem_map]
    exact ⟨(addr, s), (r.servers.get_eq_some_iff _ _).mp hg, by simp⟩

/-- Lookup of any other address after `putServer`. -/
theorem putServer_get_other (r : GeeRegistry) (addr other : String) (now : Time)
    (hne : other ≠ addr) :
    (r.putServer addr now).servers.get other = r.servers.get other := by
  have key : ∀ s, (other, s) ∈ (r.putServer addr now).servers.entries ↔
      (other, s) ∈ r.servers.entries := by
    intro s
    rw [putServer_entries]
    cases hg : r.servers.get addr with
    | none =>
      simp only [List.mem_append, List.mem_singleton, Prod.mk.injEq]
      constructor
      · rintro (h | ⟨h, _⟩)
        · exact h
        · exact absurd h hne
      · intro h; exact Or.inl h
    | some s0 =>
      simp only [List.mem_map]
      constructor
      · rintro ⟨e, he, heq⟩
        by_cases h1 : e.1 = addr
        · rw [if_pos h1] at heq
          have : e.1 = other := congrArg Prod.fst heq
          exact absurd (this.symm.trans h1) hne
        · rw [if_neg h1] at heq
          rw [← heq]; exact he
      · intro h
        exact ⟨(other, s), h, by simp [hne]⟩
  cases hg : r.servers.get other with
  | none =>
    rw [ServerMap.get_eq_none_iff]
    intro s hs
    have := (r.servers.get_eq_some_iff _ _).mpr ((key s).mp hs)
    rw [hg] at this; cases this
  | some s =>
    rw [ServerMap.get_eq_some_iff]
    exact (key s).mpr ((r.servers.get_eq_some_iff _ _).mp hg)

/-- An address that is not in the map stays out of the map, and out of every
listing, as long as it is not recorded again. -/
theorem runCalls_absent (addr : String) (cs : List Call) :
    ∀ r : GeeRegistry, r.servers.get addr = none →
      (∀ now, Call.put addr now ∉ cs) →
      (∀ l ∈ (runCalls cs r).1, addr ∉ l) ∧ (runCalls cs r).2.servers.get addr = none := by
  induction cs with
  | nil => intro r h _; exact ⟨by simp [runCalls], h⟩
  | cons c cs ih =>
    intro r h hput
    have hput' : ∀ now, Call.put addr now ∉ cs :=
      fun now hmem => hput now (List.mem_cons_of_mem _ hmem)
    cases c with
    | put a t =>
      have hne : addr ≠ a := by
        rintro rfl
        exact hput t (List.mem_cons_self _ _)
      have h1 : (r.putServer a t).servers.get addr = none := by
        rw [putServer_get_other r a addr t hne]; exact h
      simpa only [runCalls] using ih _ h1 hput'
    | list t =>
      have hnot : addr ∉ (r.aliveServers t).1 := by
        intro hmem
        obtain ⟨k, s, hk, _⟩ := (mem_aliveServers_clock r t addr).mp hmem
        have hs := (r.servers.get_eq_some_iff addr s).mpr (List.get?_mem hk)
        rw [h] at hs; cases hs
      have h1 : (r.aliveServers t).2.servers.get addr = none := by
        rw [aliveServers_get, if_neg hnot]
      obtain ⟨ihl, ihs⟩ := ih _ h1 hput'
      refine ⟨?_, by simpa only [runCalls] using ihs⟩
      intro l hl
      simp only [runCalls, List.mem_cons] at hl
      rcases hl with rfl | hl
      · exact hnot
      · exact ihl l hl

theorem heartbeatLoop_failed (send : Nat → Option String) (ticks k : Nat) (e : String) :
    heartbeatLoop send ticks k (some e) = k := by
  cases ticks <;> simp [heartbeatLoop]

/-- While every call so far succeeded the loop makes one more call per tick. -/
theorem heartbeatLoop_all_ok (send : Nat → Option String) (ticks : Nat) :
    ∀ (k : Nat) (err : Option String), (0 < ticks → err = none) →
      (∀ j, k ≤ j → j + 1 < k + ticks → send j = none) →
      heartbeatLoop send ticks k err = k + ticks := by
  induction ticks with
  | zero => intro k err _ _; rfl
  | succ t ih =>
    intro k err herr h
    rw [heartbeatLoop, if_pos (herr (Nat.succ_pos t)),
      ih (k + 1) (send k) (fun ht => h k (Nat.le_refl k) (by omega))
        (fun j h1 h2 => h j (by omega) (by omega))]
    omega

/-- The loop stops at the first failed call. -/
theorem heartbeatLoop_first_failure (send : Nat → Option String) (e : String) (f : Nat)
    (hf : send f = some e) :
    ∀ ticks k, k ≤ f → f < k + ticks → (∀ j, k ≤ j → j < f → send j = none) →
      heartbeatLoop send ticks k none = f + 1 := by
  intro ticks
  induction ticks with
  | zero => intro k h1 h2 _; omega
  | succ t ih =>
    intro k h1 h2 h
    rw [heartbeatLoop, if_pos rfl]
    by_cases hkf : k = f
    · rw [hkf, hf, heartbeatLoop_failed]
    · rw [h k (Nat.le_refl k) (by omega)]
      exact ih (k + 1) (by omega) (by omega) (fun j h3 h4 => h j (by omega) h4)

/-- C4 (as stated, refuted): with ttl = 100ms an address recorded at t = 0 has
`now <= lastHeartbeat + ttl` at now = 100ms, yet the listing made at that
instant does not contain it: the boundary instant is not included. -/
theorem aliveServers_boundary_not_listed :
    ((New (100 * Millisecond)).putServer "tcp@a" 0).servers.get "tcp@a"
      = some { Addr := "tcp@a", start := 0 } ∧
    ((100 * Millisecond : Time) ≤ 0 + 100 * Millisecond) ∧
    "tcp@a" ∉ (((New (100 * Millisecond)).putServer "tcp@a" 0).aliveServers
      (fun _ => 100 * Millisecond)).1 := by
  decide

/-- C4 (amended): an address is in the list returned by `aliveServers` if and
only if the map holds an entry for it and ttl = 0 or now < lastHeartbeat + ttl
(the boundary instant lastHeartbeat + ttl = now is excluded). In particular with
ttl = 100ms an address recorded at t = 0 and not recorded again is listed at
t = 50ms and not listed at t = 200ms, also when the listing at 50ms came first.
When the clock moves during the listing, `now` is for each address the reading
of the iteration that tests it. -/
theorem aliveServers_mem_iff (r : GeeRegistry) (now : Time) (addr : String) :
    (addr ∈ (r.aliveServers (fun _ => now)).1 ↔
      ∃ s, r.servers.get addr = some s ∧ (r.timeout = 0 ∨ now < s.start + r.timeout)) ∧
    (∀ m : ServerMap,
      addr ∈ ((({ timeout := 100 * Millisecond, servers := m } : GeeRegistry).putServer
        addr 0).aliveServers (fun _ => 50 * Millisecond)).1 ∧
      addr ∉ ((({ timeout := 100 * Millisecond, servers := m } : GeeRegistry).putServer
        addr 0).aliveServers (fun _ => 200 * Millisecond)).1 ∧
      addr ∉ (((({ timeout := 100 * Millisecond, servers := m } : GeeRegistry).putServer
        addr 0).aliveServers (fun _ => 50 * Millisecond)).2.aliveServers
          (fun _ => 200 * Millisecond)).1) ∧
    (∀ clock : Nat → Time, addr ∈ (r.aliveServers clock).1 ↔
      ∃ k s, r.servers.entries.get? k = some (addr, s) ∧
        (r.timeout = 0 ∨ clock k < s.start + r.timeout)) := by
  refine ⟨mem_aliveServers r now addr, ?_, fun clock => mem_aliveServers_clock r clock addr⟩
  intro m
  have hstart : ∀ s, (({ timeout := 100 * Millisecond, servers := m } : GeeRegistry).putServer
      addr 0).servers.get addr = some s → s.start = 0 := by
    intro s hs
    rw [putServer_get_self] at hs
    cases hg : ({ timeout := 100 * Millisecond, servers := m } : GeeRegistry).servers.get addr with
    | none => rw [hg] at hs; simp only [Option.some.injEq] at hs; rw [← hs]
    | some s0 => rw [hg] at hs; simp only [Option.some.injEq] at hs; rw [← hs]
  have hsome : ∃ s, (({ timeout := 100 * Millisecond, servers := m } : GeeRegistry).putServer
      addr 0).servers.get addr = some s := by
    rw [putServer_get_self]
    cases ({ timeout := 100 * Millisecond, servers := m } : GeeRegistry).servers.get addr with
    | none => exact ⟨_, rfl⟩
    | some s0 => exact ⟨_, rfl⟩
  have hlate : addr ∉ ((({ timeout := 100 * Millisecond, servers := m } :
      GeeRegistry).putServer addr 0).aliveServers (fun _ => 200 * Millisecond)).1 := by
    rw [mem_aliveServers]
    rintro ⟨s, hs, hal⟩
    rw [putServer_timeout, hstart s hs] at hal
    dsimp only at hal
    revert hal
    decide
  refine ⟨?_, hlate, ?_⟩
  · rw [mem_aliveServers]
    obtain ⟨s, hs⟩ := hsome
    refine ⟨s, hs, ?_⟩
    rw [putServer_timeout, hstart s hs]
    dsimp only
    decide
  · rw [mem_aliveServers]
    rintro ⟨s, hs, hal⟩
    rw [aliveServers_get] at hs
    split at hs
    · rw [aliveServers_timeout, putServer_timeout, hstart s hs] at hal
      dsimp only at hal
      revert hal
      decide
    · cases hs

/-- A clock that moves between two iterations of one listing: with ttl = 100,
`a` and `b` both recorded at 0 and the readings 99 and 100, the entry visited
first is listed and the one visited second is not. -/
theorem aliveServers_moving_clock :
    (({ timeout := 100, servers := ⟨[("a", ⟨"a", 0⟩), ("b", ⟨"b", 0⟩)], by decide⟩ } :
        GeeRegistry).aliveServers (fun k => 99 + k)).1 = ["a"] ∧
    (({ timeout := 100, servers := ⟨[("b", ⟨"b", 0⟩), ("a", ⟨"a", 0⟩)], by decide⟩ } :
        GeeRegistry).aliveServers (fun k => 99 + k)).1 = ["b"] := by
  decide

/-- C5: whatever the order in which the `range` loop visits the entries of the
map and whatever the clock reads in each iteration, the list returned by
`aliveServers` is sorted in ascending lexicographic order and holds no address
twice; and for a listing at one time `now` the list is the same for every
visiting order. -/
theorem aliveServers_sorted_nodup (r : GeeRegistry) (clock : Nat → Time) :
    (r.aliveServers clock).1.Sorted (· ≤ ·) ∧
    (r.aliveServers clock).1.Nodup ∧
    (∀ (r2 : GeeRegistry) (clock2 : Nat → Time), r2.timeout = r.timeout →
      r2.servers.entries.Perm r.servers.entries →
      (r2.aliveServers clock2).1.Sorted (· ≤ ·) ∧ (r2.aliveServers clock2).1.Nodup) ∧
    (∀ (now : Time) (r2 : GeeRegistry), r2.timeout = r.timeout →
      r2.servers.entries.Perm r.servers.entries →
      (r2.aliveServers (fun _ => now)).1 = (r.aliveServers (fun _ => now)).1) := by
  have hsorted : ∀ (r0 : GeeRegistry) (c : Nat → Time),
      (r0.aliveServers c).1.Sorted (· ≤ ·) := by
    intro r0 c
    simp only [GeeRegistry.aliveServers]
    exact sortStrings_sorted _
  refine ⟨hsorted r clock, aliveServers_nodup r clock, ?_, ?_⟩
  · intro r2 clock2 _ _
    exact ⟨hsorted r2 clock2, aliveServers_nodup r2 clock2⟩
  · intro now r2 ht hp
    rw [aliveServers_list, aliveServers_list, ht]
    exact sortStrings_eq_of_perm ((hp.filter _).map _)

/-- C5, instance: two visiting orders of the same two live entries give the same
sorted list. -/
theorem aliveServers_sorted_nodup_witness :
    (({ timeout := 0, servers := ⟨[("b", ⟨"b", 1⟩), ("a", ⟨"a", 2⟩)], by decide⟩ } :
        GeeRegistry).aliveServers (fun _ => 9)).1 = ["a", "b"] ∧
    (({ timeout := 0, servers := ⟨[("a", ⟨"a", 2⟩), ("b", ⟨"b", 1⟩)], by decide⟩ } :
        GeeRegistry).aliveServers (fun _ => 9)).1
      = (({ timeout := 0, servers := ⟨[("b", ⟨"b", 1⟩), ("a", ⟨"a", 2⟩)], by decide⟩ } :
        GeeRegistry).aliveServers (fun _ => 9)).1 :=
  ⟨by decide,
    (aliveServers_sorted_nodup
      { timeout := 0, servers := ⟨[("b", ⟨"b", 1⟩), ("a", ⟨"a", 2⟩)], by decide⟩ }
      (fun _ => 9)).2.2.2 9
      { timeout := 0, servers := ⟨[("a", ⟨"a", 2⟩), ("b", ⟨"b", 1⟩)], by decide⟩ }
      rfl (List.Perm.swap _ _ _)⟩

/-- C6: `aliveServers` decides each entry by the test `ttl = 0 or
now < lastHeartbeat + ttl` at the clock reading of its iteration: an entry that
passes is returned and stays in the map with its heartbeat time unchanged, an
entry that fails is not returned and is deleted, so with ttl = 0 nothing is
deleted; after the call the map holds exactly the entries whose addresses were
returned; an address that was not returned stays out of every later listing as
long as no `putServer` records it again; `putServer` sets the heartbeat time of
the recorded address, leaves the entry of every other address as it was and so
deletes nothing. -/
theorem aliveServers_expiry_exact (r : GeeRegistry) (clock : Nat → Time) :
    (∀ k addr s, r.servers.entries.get? k = some (addr, s) →
      ((r.timeout = 0 ∨ clock k < s.start + r.timeout) →
        addr ∈ (r.aliveServers clock).1 ∧
          (r.aliveServers clock).2.servers.get addr = some s) ∧
      (¬ (r.timeout = 0 ∨ clock k < s.start + r.timeout) →
        addr ∉ (r.aliveServers clock).1 ∧
          (r.aliveServers clock).2.servers.get addr = none)) ∧
    (r.timeout = 0 → ∀ addr,
      (r.aliveServers clock).2.servers.get addr = r.servers.get addr) ∧
    (∀ addr, (r.aliveServers clock).2.servers.get addr =
      if addr ∈ (r.aliveServers clock).1 then r.servers.get addr else none) ∧
    (∀ addr, ((r.aliveServers clock).2.servers.get addr).isSome = true ↔
      addr ∈ (r.aliveServers clock).1) ∧
    (r.aliveServers clock).2.timeout = r.timeout ∧
    (∀ addr cs, addr ∉ (r.aliveServers clock).1 → (∀ t, Call.put addr t ∉ cs) →
      ∀ l ∈ (runCalls cs (r.aliveServers clock).2).1, addr ∉ l) ∧
    (∀ addr t, ((r.putServer addr t).servers.get addr).map ServerItem.start = some t) ∧
    (∀ addr t other, other ≠ addr →
      (r.putServer addr t).servers.get other = r.servers.get other) ∧
    (∀ addr t a, (r.servers.get a).isSome → ((r.putServer addr t).servers.get a).isSome) := by
  refine ⟨fun k addr s hk => aliveServers_entry r clock k addr s hk, ?_,
    aliveServers_get r clock, ?_, rfl, ?_, ?_, ?_, ?_⟩
  · intro ht addr
    cases hg : r.servers.get addr with
    | none =>
      rw [aliveServers_get, hg]
      split <;> rfl
    | some s =>
      obtain ⟨k, hk⟩ := List.mem_iff_get?.mp ((r.servers.get_eq_some_iff addr s).mp hg)
      exact ((aliveServers_entry r clock k addr s hk).1 (Or.inl ht)).2
  · intro addr
    rw [aliveServers_get]
    by_cases hmem : addr ∈ (r.aliveServers clock).1
    · obtain ⟨k, s, hk, _⟩ := (mem_aliveServers_clock r clock addr).mp hmem
      have hs := (r.servers.get_eq_some_iff addr s).mpr (List.get?_mem hk)
      simp [hmem, hs]
    · simp [hmem]
  · intro addr cs hnot hput
    have h1 : (r.aliveServers clock).2.servers.get addr = none := by
      rw [aliveServers_get, if_neg hnot]
    exact (runCalls_absent addr cs _ h1 hput).1
  · intro addr t
    rw [putServer_get_self]
    cases r.servers.get addr <;> rfl
  · intro addr t other hne
    exact putServer_get_other r addr other t hne
  · intro addr t a ha
    by_cases hne : a = addr
    · rw [hne, putServer_get_self]
      cases r.servers.get addr <;> rfl
    · rw [putServer_get_other r addr a t hne]; exact ha

/-- C6, instance: with ttl = 100ms, `a` recorded at 0 and `b` at 150ms, the
listing at 200ms deletes `a`, returns `b` and keeps its entry as it was, and `a`
is still missing from the listing at 210ms that follows a heartbeat of `b`. -/
theorem aliveServers_expiry_exact_witness :
    ((((New (100 * Millisecond)).putServer "a" 0).putServer "b"
        (150 * Millisecond)).aliveServers (fun _ => 200 * Millisecond)).1 = ["b"] ∧
    (((((New (100 * Millisecond)).putServer "a" 0).putServer "b"
        (150 * Millisecond)).aliveServers (fun _ => 200 * Millisecond)).2.servers.get "b"
      = some { Addr := "b", start := 150 * Millisecond }) ∧
    (∀ t, Call.put "a" t ∉
      [Call.put "b" (205 * Millisecond), Call.list (fun _ => 210 * Millisecond)]) ∧
    ∀ l ∈ (runCalls [Call.put "b" (205 * Millisecond), Call.list (fun _ => 210 * Millisecond)]
        ((((New (100 * Millisecond)).putServer "a" 0).putServer "b"
          (150 * Millisecond)).aliveServers (fun _ => 200 * Millisecond)).2).1, "a" ∉ l :=
  have hput : ∀ t, Call.put "a" t ∉
      [Call.put "b" (205 * Millisecond), Call.list (fun _ => 210 * Millisecond)] := by
    intro t h
    simp at h
  have hb : (((New (100 * Millisecond)).putServer "a" 0).putServer "b"
      (150 * Millisecond)).servers.entries.get? 1
      = some ("b", { Addr := "b", start := 150 * Millisecond }) := by
    decide
  ⟨by decide,
    (((aliveServers_expiry_exact (((New (100 * Millisecond)).putServer "a" 0).putServer "b"
      (150 * Millisecond)) (fun _ => 200 * Millisecond)).1 1 "b" _ hb).1 (by decide)).2,
    hput,
    (aliveServers_expiry_exact (((New (100 * Millisecond)).putServer "a" 0).putServer "b"
      (150 * Millisecond)) (fun _ => 200 * Millisecond)).2.2.2.2.2.1 "a" _ (by decide) hput⟩

/-- C7 (as stated, refuted): when every send fails, `Heartbeat` makes the
initial call only; after three ticks it has made one call, not four. -/
theorem Heartbeat_stops_after_failure :
    Heartbeat (fun _ => some "connection refused") 3 = 1 ∧
    Heartbeat (fun _ => some "connection refused") 3 ≠ 3 + 1 ∧
    Heartbeat (fun j => if j = 1 then some "connection refused" else none) 5 = 2 := by
  decide

/-- C7 (amended): `Heartbeat` sends once immediately and then once per tick for
as long as every earlier send succeeded: if the first `ticks` sends succeed it
has made `ticks + 1` calls after `ticks` ticks, and if the call number `f` is
the first to fail it makes no call after that one, however many ticks follow. -/
theorem Heartbeat_until_first_failure (send : Nat → Option String) (ticks : Nat) :
    ((∀ j, j < ticks → send j = none) → Heartbeat send ticks = ticks + 1) ∧
    (∀ f e, f ≤ ticks → send f = some e → (∀ j, j < f → send j = none) →
      Heartbeat send ticks = f + 1) := by
  constructor
  · intro h
    unfold Heartbeat
    rw [heartbeatLoop_all_ok send ticks 1 (send 0) (fun ht => h 0 ht)
      (fun j _ h2 => h j (by omega))]
    omega
  · intro f e hf hs hbefore
    unfold Heartbeat
    by_cases h0 : f = 0
    · rw [← h0, hs, heartbeatLoop_failed, h0]
    · rw [hbefore 0 (by omega)]
      exact heartbeatLoop_first_failure send e f hs ticks 1 (by omega) (by omega)
        (fun j _ h2 => hbefore j h2)

/-- C7 (amended), instance: the second call fails, so two calls are made. -/
theorem Heartbeat_until_first_failure_witness :
    (1 ≤ 5) ∧ Heartbeat (fun j => if j = 1 then some "refused" else none) 5 = 1 + 1 :=
  ⟨by decide,
    (Heartbeat_until_first_failure (fun j => if j = 1 then some "refused" else none) 5).2
      1 "refused" (by decide) rfl (by intro j hj; have : j = 0 := by omega
                                      subst this; rfl)⟩

end registry

namespace rpc

open codec

theorem LastIndex_ge (s : List Char) (c : Char) : -1 ≤ LastIndex s c := by
  induction s with
  | nil => simp [LastIndex]
  | cons x xs ih =>
    unfold LastIndex
    split
    · omega
    · split <;> omega

theorem LastIndex_neg_iff (s : List Char) (c : Char) : LastIndex s c < 0 ↔ c ∉ s := by
  induction s with
  | nil => simp [LastIndex]
  | cons x xs ih =>
    unfold LastIndex
    by_cases h : 0 ≤ LastIndex xs c
    · have hmem : c ∈ xs := by
        by_contra hc
        have := ih.mpr hc
        omega
      simp only [h, if_true, List.mem_cons, hmem, or_true, not_true_eq_false, iff_false]
      omega
    · have hnot : c ∉ xs := ih.mp (by omega)
      by_cases hx : x = c
      · simp [h, hx]
      · have hx' : ¬ c = x := fun h' => hx h'.symm
        simp [h, hx, hx', hnot]

/-- The function `LastIndex` finds the separator that no later separator follows. -/
theorem LastIndex_append (a b : List Char) (c : Char) (hb : c ∉ b) :
    LastIndex (a ++ c :: b) c = (a.length : Int) := by
  induction a with
  | nil =>
    have h : ¬ (0 ≤ LastIndex b c) := by
      have := (LastIndex_neg_iff b c).mpr hb
      omega
    simp [LastIndex, h]
  | cons x xs ih =>
    rw [List.cons_append, LastIndex, ih]
    have h : (0 : Int) ≤ (xs.length : Int) := by omega
    rw [if_pos h]
    simp

/-- A string holding the separator splits at its last occurrence. -/
theorem LastIndex_split (s : List Char) (c : Char) (h : c ∈ s) :
    ∃ a b, s = a ++ c :: b ∧ c ∉ b := by
  induction s with
  | nil => cases h
  | cons x xs ih =>
    by_cases hxs : c ∈ xs
    · obtain ⟨a, b, hab, hb⟩ := ih hxs
      exact ⟨x :: a, b, by rw [hab]; rfl, hb⟩
    · have hx : c = x := by
        rcases List.mem_cons.mp h with h1 | h1
        · exact h1
        · exact absurd h1 hxs
      exact ⟨[], xs, by rw [hx]; rfl, hxs⟩

theorem findService_no_dot {Val : Type} (server : Server Val) (sm : String)
    (h : '.' ∉ sm.data) :
    server.findService sm =
      ⟨none, none, some ("rpc server: service/method request ill-formed: " ++ sm)⟩ := by
  unfold Server.findService
  have hneg := (LastIndex_neg_iff sm.data '.').mpr h
  simp only [hneg, if_true]

theorem findService_split {Val : Type} (server : Server Val) (sn mn : String)
    (h : '.' ∉ mn.data) :
    server.findService (sn ++ "." ++ mn) =
      match server.serviceMap sn with
      | none => ⟨none, none, some ("rpc server: can't find service " ++ sn)⟩
      | some svc =>
        match svc.method mn with
        | none => ⟨some svc, none, some ("rpc server: can't find method " ++ mn)⟩
        | some mtype => ⟨some svc, some mtype, none⟩ := by
  unfold Server.findService
  have hdata : (sn ++ "." ++ mn).data = sn.data ++ '.' :: mn.data := by
    simp [String.data_append]
  have hdot : LastIndex (sn ++ "." ++ mn).data '.' = (sn.data.length : Int) := by
    rw [hdata]; exact LastIndex_append _ _ _ h
  have hnn : ¬ ((sn.data.length : Int) < 0) := by omega
  have h1 : (⟨(sn ++ "." ++ mn).data.take (sn.data.length : Int).toNat⟩ : String) = sn := by
    rw [hdata]; simp
  have h2 : (⟨(sn ++ "." ++ mn).data.drop ((sn.data.length : Int) + 1).toNat⟩ : String)
      = mn := by
    rw [hdata]
    have : ((sn.data.length : Int) + 1).toNat = sn.data.length + 1 := by omega
    rw [this, show sn.data ++ '.' :: mn.data = (sn.data ++ ['.']) ++ mn.data by simp,
      List.drop_left' (by simp)]
  simp only [hdot, hnn, if_false, h1, h2]

/-- Two messages whose fixed prefixes already differ are different. -/
theorem append_ne_of_prefix_ne (a b x y : String) (n : Nat) (ha : n ≤ a.data.length)
    (hb : n ≤ b.data.length) (hne : a.data.take n ≠ b.data.take n) : a ++ x ≠ b ++ y := by
  intro h
  have h1 := congrArg (fun s : String => s.data.take n) h
  simp only [String.data_append, List.take_append_of_le_length ha,
    List.take_append_of_le_length hb] at h1
  exact hne h1

theorem findService_err_none_iff {Val : Type} (server : Server Val) (sm : String) :
    (server.findService sm).err = none ↔
      ∃ sn mn svc mtype, sm = sn ++ "." ++ mn ∧ '.' ∉ mn.data ∧
        server.serviceMap sn = some svc ∧ svc.method mn = some mtype ∧
        server.findService sm = ⟨some svc, some mtype, none⟩ := by
  constructor
  · intro h
    by_cases hdot : '.' ∈ sm.data
    · obtain ⟨a, b, hab, hb⟩ := LastIndex_split sm.data '.' hdot
      have hsm : sm = (⟨a⟩ : String) ++ "." ++ (⟨b⟩ : String) := by
        apply String.ext
        simp [String.data_append, hab]
      have hfs := findService_split server ⟨a⟩ ⟨b⟩ hb
      rw [← hsm] at hfs
      rw [hfs] at h
      cases hsvc : server.serviceMap ⟨a⟩ with
      | none => rw [hsvc] at h; cases h
      | some svc =>
        rw [hsvc] at h hfs
        dsimp only at h hfs
        cases hm : svc.method ⟨b⟩ with
        | none => rw [hm] at h; cases h
        | some mtype =>
          rw [hm] at hfs
          exact ⟨⟨a⟩, ⟨b⟩, svc, mtype, hsm, hb, hsvc, hm, hfs⟩
    · rw [findService_no_dot server sm hdot] at h
      cases h
  · rintro ⟨sn, mn, svc, mtype, _, _, _, _, hfs⟩
    rw [hfs]

/-- C8: `findService` splits `serviceMethod` at its last `.`: for a string with
no `.` it returns the ill-formed error; a string with a `.` is
`serviceName ++ "." ++ methodName` with no `.` in `methodName`, and on such a
string the result is the can't-find-service error when `serviceName` is not
registered, else the can't-find-method error when `methodName` is not indexed,
else the service and the method with a nil error; so it succeeds exactly when all
three conditions hold. The three errors are pairwise different whatever names
they carry, and `Foo2.Sum` is answered with can't-find-service when `Foo2` is not
registered. -/
theorem findService_resolution {Val : Type} (server : Server Val) :
    (∀ sm : String, '.' ∉ sm.data → server.findService sm =
      ⟨none, none, some ("rpc server: service/method request ill-formed: " ++ sm)⟩) ∧
    (∀ sm : String, '.' ∈ sm.data → ∃ sn mn : String, sm = sn ++ "." ++ mn ∧ '.' ∉ mn.data) ∧
    (∀ sn mn : String, '.' ∉ mn.data → server.findService (sn ++ "." ++ mn) =
      match server.serviceMap sn with
      | none => ⟨none, none, some ("rpc server: can't find service " ++ sn)⟩
      | some svc =>
        match svc.method mn with
        | none => ⟨some svc, none, some ("rpc server: can't find method " ++ mn)⟩
        | some mtype => ⟨some svc, some mtype, none⟩) ∧
    (∀ sm : String, (server.findService sm).err = none ↔
      ∃ sn mn svc mtype, sm = sn ++ "." ++ mn ∧ '.' ∉ mn.data ∧
        server.serviceMap sn = some svc ∧ svc.method mn = some mtype ∧
        server.findService sm = ⟨some svc, some mtype, none⟩) ∧
    (∀ x y z : String,
      "rpc server: service/method request ill-formed: " ++ x
        ≠ "rpc server: can't find service " ++ y ∧
      "rpc server: service/method request ill-formed: " ++ x
        ≠ "rpc server: can't find method " ++ z ∧
      "rpc server: can't find service " ++ y ≠ "rpc server: can't find method " ++ z) ∧
    (server.serviceMap "Foo2" = none → (server.findService "Foo2.Sum").err =
      some "rpc server: can't find service Foo2") := by
  refine ⟨findService_no_dot server, ?_, findService_split server,
    findService_err_none_iff server, ?_, ?_⟩
  · intro sm hdot
    obtain ⟨a, b, hab, hb⟩ := LastIndex_split sm.data '.' hdot
    refine ⟨⟨a⟩, ⟨b⟩, ?_, hb⟩
    apply String.ext
    simp [String.data_append, hab]
  · intro x y z
    exact ⟨append_ne_of_prefix_ne _ _ x y 13 (by decide) (by decide) (by decide),
      append_ne_of_prefix_ne _ _ x z 13 (by decide) (by decide) (by decide),
      append_ne_of_prefix_ne _ _ y z 24 (by decide) (by decide) (by decide)⟩
  · intro h
    have hfs := findService_split server "Foo2" "Sum" (by decide)
    rw [h] at hfs
    have e : ("Foo2" : String) ++ "." ++ "Sum" = "Foo2.Sum" := by decide
    rw [e] at hfs
    rw [hfs]
    rfl

/-- C8, instance: with only `Foo` registered (method `Sum`), `Foo2.Sum` gets the
can't-find-service error, `Foo.Mul` the can't-find-method error, `FooSum` the
ill-formed error and `Foo.Sum` resolves. -/
theorem findService_resolution_witness :
    (((⟨fun n => if n = "Foo" then
          some ⟨"Foo", fun m => if m = "Sum" then some ⟨fun a => some (a, none)⟩ else none⟩
        else none⟩ : Server Int).findService "Foo2.Sum").err
      = some "rpc server: can't find service Foo2") ∧
    (((⟨fun n => if n = "Foo" then
          some ⟨"Foo", fun m => if m = "Sum" then some ⟨fun a => some (a, none)⟩ else none⟩
        else none⟩ : Server Int).findService "Foo.Mul").err
      = some "rpc server: can't find method Mul") ∧
    (((⟨fun n => if n = "Foo" then
          some ⟨"Foo", fun m => if m = "Sum" then some ⟨fun a => some (a, none)⟩ else none⟩
        else none⟩ : Server Int).findService "FooSum").err
      = some "rpc server: service/method request ill-formed: FooSum") ∧
    (((⟨fun n => if n = "Foo" then
          some ⟨"Foo", fun m => if m = "Sum" then some ⟨fun a => some (a, none)⟩ else none⟩
        else none⟩ : Server Int).findService "Foo.Sum").err = none) :=
  ⟨(findService_resolution (⟨fun n => if n = "Foo" then
          some ⟨"Foo", fun m => if m = "Sum" then some ⟨fun a => some (a, none)⟩ else none⟩
        else none⟩ : Server Int)).2.2.2.2.2 (by simp),
    by decide, by decide, by decide⟩

theorem handleInv_init {Val : Type} (req : request Val) (timeout : Int) (text : String) :
    handleInv req timeout text (handleInit req timeout) := by
  unfold handleInit handleInv
  by_cases h : timeout = 0 <;> simp [h]

theorem handleInv_step {Val : Type} (req : request Val) (timeout : Int) (text : String)
    (s : Handling Val) (e : Event) (hinv : handleInv req timeout text s) :
    handleInv req timeout text (handleStep req text s e) := by
  obtain ⟨h, call, wait, written⟩ := s
  rcases hc : req.svc.call req.mtype req.argv with _ | ⟨v, _ | err⟩ <;>
    cases call <;> cases wait <;> cases e <;>
    simp_all [handleInv, handleStep, enabled, effect, methodFrame, timeoutFrame]

theorem handleInv_run {Val : Type} (req : request Val) (timeout : Int) (text : String)
    (sched : List Event) :
    ∀ s, handleInv req timeout text s →
      handleInv req timeout text (sched.foldl (handleStep req text) s) := by
  induction sched with
  | nil => intro s hs; exact hs
  | cons e es ih => intro s hs; exact ih _ (handleInv_step req timeout text s e hs)

theorem handleInv_handleRequest {Val : Type} (server : Server Val) (req : request Val)
    (timeout : Int) (text : String) (sched : List Event) :
    handleInv req timeout text (server.handleRequest req timeout text sched) :=
  handleInv_run req timeout text sched _ (handleInv_init req timeout text)

theorem handleRequest_append {Val : Type} (server : Server Val) (req : request Val)
    (timeout : Int) (text : String) (sched more : List Event) :
    server.handleRequest req timeout text (sched ++ more) =
      more.foldl (handleStep req text) (server.handleRequest req timeout text sched) := by
  simp only [Server.handleRequest, List.foldl_append]

/-- In a state of `handleRequest` at most one frame has been written, and it is
the method's frame or the timeout frame. -/
theorem handleInv_written {Val : Type} (req : request Val) (timeout : Int) (text : String)
    (s : Handling Val) (hinv : handleInv req timeout text s) :
    s.written.length ≤ 1 ∧
      ∀ f ∈ s.written, methodFrame req = some f ∨ f = timeoutFrame req text := by
  obtain ⟨h, call, wait, written⟩ := s
  rcases hc : req.svc.call req.mtype req.argv with _ | ⟨v, _ | err⟩ <;>
    cases call <;> cases wait <;>
    simp_all [handleInv, methodFrame, timeoutFrame]

/-- When no move is left, one frame has been written, unless the method never
returns and there is no timeout. -/
theorem handleInv_quiescent {Val : Type} (req : request Val) (timeout : Int) (text : String)
    (s : Handling Val) (hinv : handleInv req timeout text s)
    (hq : quiescent req s = true) :
    (((req.svc.call req.mtype req.argv).isSome = true ∨ timeout ≠ 0) →
      s.written.length = 1) ∧
    (timeout = 0 → s.written = (methodFrame req).toList) := by
  obtain ⟨h, call, wait, written⟩ := s
  rcases hc : req.svc.call req.mtype req.argv with _ | ⟨v, _ | err⟩ <;>
    cases call <;> cases wait <;>
    simp_all [handleInv, methodFrame, timeoutFrame, quiescent, Event.all, enabled]

theorem observedTimeout_step {Val : Type} (req : request Val) (timeout : Int) (text : String)
    (s : Handling Val) (e : Event) (hinv : handleInv req timeout text s)
    (ho : observedTimeout s) : observedTimeout (handleStep req text s e) := by
  obtain ⟨h, call, wait, written⟩ := s
  rcases hc : req.svc.call req.mtype req.argv with _ | ⟨v, _ | err⟩ <;>
    cases call <;> cases wait <;> cases e <;>
    simp_all [handleInv, observedTimeout, handleStep, enabled, effect]

theorem observedCompletion_step {Val : Type} (req : request Val) (timeout : Int)
    (text : String) (s : Handling Val) (e : Event) (hinv : handleInv req timeout text s)
    (ho : observedCompletion s) : observedCompletion (handleStep req text s e) := by
  obtain ⟨h, call, wait, written⟩ := s
  rcases hc : req.svc.call req.mtype req.argv with _ | ⟨v, _ | err⟩ <;>
    cases call <;> cases wait <;> cases e <;>
    simp_all [handleInv, observedCompletion, handleStep, enabled, effect]

theorem observed_run {Val : Type} (req : request Val) (timeout : Int) (text : String)
    (more : List Event) :
    ∀ s, handleInv req timeout text s →
      (observedTimeout s → observedTimeout (more.foldl (handleStep req text) s)) ∧
      (observedCompletion s → observedCompletion (more.foldl (handleStep req text) s)) := by
  induction more with
  | nil => intro s _; exact ⟨id, id⟩
  | cons e es ih =>
    intro s hs
    have hnext := ih _ (handleInv_step req timeout text s e hs)
    exact ⟨fun ho => hnext.1 (observedTimeout_step req timeout text s e hs ho),
      fun ho => hnext.2 (observedCompletion_step req timeout text s e hs ho)⟩

/-- Once the timer case has been taken only the timeout frame is ever written. -/
theorem observedTimeout_written {Val : Type} (req : request Val) (timeout : Int)
    (text : String) (s : Handling Val) (hinv : handleInv req timeout text s)
    (ho : observedTimeout s) :
    (∀ f ∈ s.written, f = timeoutFrame req text) ∧
    (quiescent req s = true → s.written = [timeoutFrame req text]) := by
  obtain ⟨h, call, wait, written⟩ := s
  rcases hc : req.svc.call req.mtype req.argv with _ | ⟨v, _ | err⟩ <;>
    cases call <;> cases wait <;>
    simp_all [handleInv, observedTimeout, methodFrame, timeoutFrame, quiescent, Event.all,
      enabled]

/-- Once `called` has been received only the method's frame is ever written. -/
theorem observedCompletion_written {Val : Type} (req : request Val) (timeout : Int)
    (text : String) (s : Handling Val) (hinv : handleInv req timeout text s)
    (ho : observedCompletion s) :
    (∀ f ∈ s.written, methodFrame req = some f) ∧
    (quiescent req s = true →
      s.written = (methodFrame req).toList ∧ s.written.length = 1) := by
  obtain ⟨h, call, wait, written⟩ := s
  rcases hc : req.svc.call req.mtype req.argv with _ | ⟨v, _ | err⟩ <;>
    cases call <;> cases wait <;>
    simp_all [handleInv, observedCompletion, methodFrame, timeoutFrame, quiescent, Event.all,
      enabled]

/-- From every state of `handleRequest` one round of the six moves leaves no
move to make. -/
theorem handleInv_progress {Val : Type} (req : request Val) (timeout : Int) (text : String)
    (s : Handling Val) (hinv : handleInv req timeout text s) :
    quiescent req ([Event.callReturns, Event.passCalled, Event.respond, Event.passSent,
      Event.timerFires, Event.writeTimeout].foldl (handleStep req text) s) = true := by
  obtain ⟨h, call, wait, written⟩ := s
  rcases hc : req.svc.call req.mtype req.argv with _ | ⟨v, _ | err⟩ <;>
    cases call <;> cases wait <;>
    simp_all [handleInv, List.foldl, handleStep, enabled, effect, quiescent, Event.all]

theorem append_ne_empty (p x : String) (hp : p ≠ "") : p ++ x ≠ "" := by
  intro h
  have h1 := congrArg String.data h
  rw [String.data_append] at h1
  have h2 : p.data = [] := (List.append_eq_nil.mp h1).1
  exact hp (String.ext h2)

/-- Every error of `findService` has a non-empty message. -/
theorem findService_err_ne_empty {Val : Type} (server : Server Val) (sm e : String)
    (h : (server.findService sm).err = some e) : e ≠ "" := by
  unfold Server.findService at h
  dsimp only at h
  split at h
  · simp only [Option.some.injEq] at h
    rw [← h]; exact append_ne_empty _ _ (by decide)
  · split at h
    · simp only [Option.some.injEq] at h
      rw [← h]; exact append_ne_empty _ _ (by decide)
    · split at h
      · simp only [Option.some.injEq] at h
        rw [← h]; exact append_ne_empty _ _ (by decide)
      · cases h

/-- A success of `findService` returns a registered service and one of its methods. -/
theorem findService_ok_registered {Val : Type} (server : Server Val) (sm : String)
    (svc : service Val) (mtype : methodType Val)
    (h : server.findService sm = ⟨some svc, some mtype, none⟩) :
    ∃ sn mn, server.serviceMap sn = some svc ∧ svc.method mn = some mtype := by
  have herr : (server.findService sm).err = none := by rw [h]
  obtain ⟨sn, mn, svc1, mtype1, _, _, h1, h2, h3⟩ :=
    (findService_err_none_iff server sm).mp herr
  rw [h] at h3
  simp only [Found.mk.injEq, Option.some.injEq, and_true] at h3
  obtain ⟨rfl, rfl⟩ := h3
  exact ⟨sn, mn, h1, h2⟩

/-- What `readRequest` returns when it returns a request and an error: the error
of `findService`, with the stream left where the header ended, or the error of
`ReadBody`. -/
theorem readRequest_failed {σ Val : Type} (server : Server Val) (cc : Codec σ Val) (st st1 : σ)
    (h : Header) (err : String)
    (hr : server.readRequest cc st = (ReadOutcome.failed h err, st1)) :
    cc.ReadHeader st = (Except.ok h, (cc.ReadHeader st).2) ∧
    (((server.findService h.ServiceMethod).err = some err ∧ st1 = (cc.ReadHeader st).2) ∨
      ((server.findService h.ServiceMethod).err = none ∧
        cc.ReadBody (cc.ReadHeader st).2 = (Except.error err, st1))) := by
  unfold Server.readRequest Server.readRequestHeader at hr
  rcases hh : cc.ReadHeader st with ⟨_ | h0, st0⟩
  · rw [hh] at hr; simp at hr
  · rw [hh] at hr
    dsimp only at hr
    rcases hf : server.findService h0.ServiceMethod with ⟨svc, mtype, _ | e⟩
    · rw [hf] at hr
      rcases svc with _ | svc <;> rcases mtype with _ | mtype <;> try simp at hr
      rcases hb : cc.ReadBody st0 with ⟨_ | argv, st2⟩
      · rw [hb] at hr
        simp only [Prod.mk.injEq, ReadOutcome.failed.injEq] at hr
        obtain ⟨⟨rfl, rfl⟩, rfl⟩ := hr
        simp [hf]
      · rw [hb] at hr; simp at hr
    · rw [hf] at hr
      simp only [Prod.mk.injEq, ReadOutcome.failed.injEq] at hr
      obtain ⟨⟨rfl, rfl⟩, rfl⟩ := hr
      simp [hf]

/-- What `readRequest` returns with a nil error: the header read, the service and
method found for it, and the argument decoded from the body. -/
theorem readRequest_ok {σ Val : Type} (server : Server Val) (cc : Codec σ Val) (st st1 : σ)
    (req : request Val) (hr : server.readRequest cc st = (ReadOutcome.ok req, st1)) :
    cc.ReadHeader st = (Except.ok req.h, (cc.ReadHeader st).2) ∧
    server.findService req.h.ServiceMethod = ⟨some req.svc, some req.mtype, none⟩ ∧
    cc.ReadBody (cc.ReadHeader st).2 = (Except.ok req.argv, st1) := by
  unfold Server.readRequest Server.readRequestHeader at hr
  rcases hh : cc.ReadHeader st with ⟨_ | h0, st0⟩
  · rw [hh] at hr; simp at hr
  · rw [hh] at hr
    dsimp only at hr
    rcases hf : server.findService h0.ServiceMethod with ⟨svc, mtype, _ | e⟩
    · rw [hf] at hr
      rcases svc with _ | svc <;> rcases mtype with _ | mtype <;> try simp at hr
      rcases hb : cc.ReadBody st0 with ⟨_ | argv, st2⟩
      · rw [hb] at hr; simp at hr
      · rw [hb] at hr
        simp only [Prod.mk.injEq, ReadOutcome.ok.injEq] at hr
        obtain ⟨rfl, rfl⟩ := hr
        simp [hf]
    · rw [hf] at hr; simp at hr

/-- A header that is read and whose method cannot be resolved: `readRequest`
returns the request with the error of `findService` and leaves the stream where
the header ended, `ReadBody` not having been called. -/
theorem readRequest_of_unresolved {σ Val : Type} (server : Server Val) (cc : Codec σ Val)
    (st st0 : σ) (h : Header) (err : String) (hh : cc.ReadHeader st = (Except.ok h, st0))
    (hf : (server.findService h.ServiceMethod).err = some err) :
    server.readRequest cc st = (ReadOutcome.failed h err, st0) := by
  unfold Server.readRequest Server.readRequestHeader
  rw [hh]
  dsimp only
  rcases hfs : server.findService h.ServiceMethod with ⟨svc, mtype, _ | e⟩
  · rw [hfs] at hf; cases hf
  · rw [hfs] at hf
    simp only [Option.some.injEq] at hf
    rw [hf]
    rcases svc with _ | svc <;> rcases mtype with _ | mtype <;> rfl

/-- A header that is read and resolved, followed by a body that cannot be
decoded: `readRequest` returns the request with the error of `ReadBody`. -/
theorem readRequest_of_bad_body {σ Val : Type} (server : Server Val) (cc : Codec σ Val)
    (st st0 st1 : σ) (h : Header) (err : String)
    (hh : cc.ReadHeader st = (Except.ok h, st0))
    (hf : (server.findService h.ServiceMethod).err = none)
    (hb : cc.ReadBody st0 = (Except.error err, st1)) :
    server.readRequest cc st = (ReadOutcome.failed h err, st1) := by
  obtain ⟨_, _, svc, mtype, _, _, _, _, hfs⟩ :=
    (findService_err_none_iff server h.ServiceMethod).mp hf
  unfold Server.readRequest Server.readRequestHeader
  rw [hh]
  dsimp only
  rw [hfs]
  dsimp only
  rw [hb]

/-- A header that is read and resolved, followed by a body that is decoded:
`readRequest` returns the request with a nil error. -/
theorem readRequest_of_body {σ Val : Type} (server : Server Val) (cc : Codec σ Val)
    (st st0 st1 : σ) (h : Header) (svc : service Val) (mtype : methodType Val) (argv : Val)
    (hh : cc.ReadHeader st = (Except.ok h, st0))
    (hf : server.findService h.ServiceMethod = ⟨some svc, some mtype, none⟩)
    (hb : cc.ReadBody st0 = (Except.ok argv, st1)) :
    server.readRequest cc st = (ReadOutcome.ok ⟨h, argv, mtype, svc⟩, st1) := by
  unfold Server.readRequest Server.readRequestHeader
  rw [hh]
  dsimp only
  rw [hf]
  dsimp only
  rw [hb]

/-- A header that cannot be read: `readRequest` returns no request. -/
theorem readRequest_of_no_header {σ Val : Type} (server : Server Val) (cc : Codec σ Val)
    (st st0 : σ) (e : String) (hh : cc.ReadHeader st = (Except.error e, st0)) :
    server.readRequest cc st = (ReadOutcome.noHeader e, st0) := by
  unfold Server.readRequest Server.readRequestHeader
  rw [hh]

/-- The frames `handleRequest` can write: the reply of a call that returned a
nil error, the error of a call that returned one, or the timeout error. -/
theorem handleRequest_frames {Val : Type} (server : Server Val) (req : request Val)
    (timeout : Int) (text : String) (sched : List Event) :
    ∀ f ∈ (server.handleRequest req timeout text sched).written,
      (∃ v, req.svc.call req.mtype req.argv = some (v, none) ∧ f = (req.h, Body.reply v)) ∨
      (∃ v err, req.svc.call req.mtype req.argv = some (v, some err) ∧
        f = ({ req.h with Error := err }, Body.invalidRequest)) ∨
      f = ({ req.h with
              Error := "rpc server: request handle timeout: expect within " ++ text },
            Body.invalidRequest) := by
  intro f hf
  have h := (handleInv_written req timeout text _
    (handleInv_handleRequest server req timeout text sched)).2 f hf
  rcases h with h | h
  · unfold methodFrame at h
    rcases hc : req.svc.call req.mtype req.argv with _ | ⟨v, _ | err⟩
    · rw [hc] at h; cases h
    · rw [hc] at h
      simp only [Option.some.injEq] at h
      exact Or.inl ⟨v, rfl, h.symm⟩
    · rw [hc] at h
      simp only [Option.some.injEq] at h
      exact Or.inr (Or.inl ⟨v, err, rfl, h.symm⟩)
  · exact Or.inr (Or.inr h)

/-- Every exchange of the serve loop comes from one iteration: an error answered
by the loop itself, or a request handed to `handleRequest`. -/
theorem serveCodec_mem {σ Val : Type} (server : Server Val) (cc : Codec σ Val) (timeout : Int)
    (text : String) (scheds : Nat → List Event) (fuel : Nat) :
    ∀ (st : σ) (ex : Exchange Val), ex ∈ server.serveCodec cc timeout text scheds fuel st →
      (∃ st0 st1 h err, server.readRequest cc st0 = (ReadOutcome.failed h err, st1) ∧
        ex = ⟨h, [({ h with Error := err }, Body.invalidRequest)]⟩) ∨
      (∃ st0 st1 req k, server.readRequest cc st0 = (ReadOutcome.ok req, st1) ∧
        ex = ⟨req.h, (server.handleRequest req timeout text (scheds k)).written⟩) := by
  induction fuel with
  | zero => intro st ex h; simp [Server.serveCodec] at h
  | succ fuel ih =>
    intro st ex h
    unfold Server.serveCodec at h
    rcases hr : server.readRequest cc st with ⟨_ | ⟨h0, err⟩ | req | _, st1⟩
    · rw [hr] at h; simp at h
    · rw [hr] at h
      simp only [List.mem_cons] at h
      rcases h with h | h
      · exact Or.inl ⟨st, st1, h0, err, hr, h⟩
      · exact ih st1 ex h
    · rw [hr] at h
      simp only [List.mem_cons] at h
      rcases h with h | h
      · exact Or.inr ⟨st, st1, req, fuel, hr, h⟩
      · exact ih st1 ex h
    · rw [hr] at h; simp at h

/-- C9 (as stated, refuted): a request header that arrives with `Error = "x"` and
whose method succeeds is answered by a frame whose `Error` is still `"x"` while
its body is the reply value; and a method that returns an error with an empty
message is answered by a frame whose `Error` is empty while its body is the
`invalidRequest` placeholder. -/
theorem serveCodec_error_field_not_exact :
    fooServer.serveCodec (listCodec Int) 0 "0s"
      (fun _ => [Event.callReturns, Event.passCalled, Event.respond, Event.passSent]) 2
      [Wire.header ⟨"Foo.Sum", 7, "x"⟩, Wire.body 3,
        Wire.header ⟨"Foo.Fail", 8, ""⟩, Wire.body 4]
    = [⟨⟨"Foo.Sum", 7, "x"⟩, [(⟨"Foo.Sum", 7, "x"⟩, Body.reply 3)]⟩,
       ⟨⟨"Foo.Fail", 8, ""⟩, [(⟨"Foo.Fail", 8, ""⟩, Body.invalidRequest)]⟩] := by
  decide

/-- After a resolution failure `readRequest` has returned before `ReadBody`: the
body of the failed request is still in the stream, the next iteration takes it
for a header, and the request `Foo.Sum` that follows is never answered. -/
theorem serveCodec_unread_body :
    fooServer.serveCodec (listCodec Int) 0 "0s"
      (fun _ => [Event.callReturns, Event.passCalled, Event.respond, Event.passSent]) 3
      [Wire.header ⟨"Foo2.Sum", 8, ""⟩, Wire.body 1,
        Wire.header ⟨"Foo.Sum", 9, ""⟩, Wire.body 2]
    = [⟨⟨"Foo2.Sum", 8, ""⟩,
        [(⟨"Foo2.Sum", 8, "rpc server: can't find service Foo2"⟩, Body.invalidRequest)]⟩] := by
  decide

/-- C9 (amended): every frame the serve loop writes for a header it read carries
that header's `ServiceMethod` and `Seq`, and a frame whose body is a reply value
carries the `Error` the request header arrived with. A header whose method
cannot be resolved is answered by the frame with the error of `findService` and
the `invalidRequest` body. A resolved header whose body cannot be decoded is
answered by the frame with the error of `ReadBody` and the `invalidRequest`
body, and the loop continues with the next request, from the stream as
`ReadBody` left it. A resolved header whose body is decoded is handed to
`handleRequest`, each frame of which is the reply with the header as read, or
the `invalidRequest` body with the error of the method or the timeout error, and
the loop continues with the next request. So for a request header whose `Error`
is empty, a non-empty `Error` comes with the `invalidRequest` body; and if no
decode error and no method error has an empty message, an empty `Error` comes
with a reply body. -/
theorem serveCodec_correlation {σ Val : Type} (server : Server Val) (cc : Codec σ Val)
    (timeout : Int) (text : String) (scheds : Nat → List Event) (fuel : Nat) (st : σ) :
    (∀ ex ∈ server.serveCodec cc timeout text scheds fuel st, ∀ f ∈ ex.written,
      f.1.ServiceMethod = ex.request.ServiceMethod ∧ f.1.Seq = ex.request.Seq ∧
      (f.2 = Body.invalidRequest ∨ ∃ v, f.2 = Body.reply v ∧ f.1.Error = ex.request.Error)) ∧
    (∀ h st0 err, cc.ReadHeader st = (Except.ok h, st0) →
      (server.findService h.ServiceMethod).err = some err →
      (server.serveCodec cc timeout text scheds (fuel + 1) st).head? =
        some ⟨h, [({ h with Error := err }, Body.invalidRequest)]⟩) ∧
    (∀ h st0 err st1, cc.ReadHeader st = (Except.ok h, st0) →
      (server.findService h.ServiceMethod).err = none →
      cc.ReadBody st0 = (Except.error err, st1) →
      server.serveCodec cc timeout text scheds (fuel + 1) st =
        ⟨h, [({ h with Error := err }, Body.invalidRequest)]⟩ ::
          server.serveCodec cc timeout text scheds fuel st1) ∧
    (∀ h st0 svc mtype argv st1, cc.ReadHeader st = (Except.ok h, st0) →
      server.findService h.ServiceMethod = ⟨some svc, some mtype, none⟩ →
      cc.ReadBody st0 = (Except.ok argv, st1) →
      server.serveCodec cc timeout text scheds (fuel + 1) st =
        ⟨h, (server.handleRequest ⟨h, argv, mtype, svc⟩ timeout text (scheds fuel)).written⟩ ::
          server.serveCodec cc timeout text scheds fuel st1 ∧
      ∀ sched, ∀ f ∈ (server.handleRequest ⟨h, argv, mtype, svc⟩ timeout text sched).written,
        (∃ v, svc.call mtype argv = some (v, none) ∧ f = (h, Body.reply v)) ∨
        (∃ v err, svc.call mtype argv = some (v, some err) ∧
          f = ({ h with Error := err }, Body.invalidRequest)) ∨
        f = ({ h with
                Error := "rpc server: request handle timeout: expect within " ++ text },
              Body.invalidRequest)) ∧
    (∀ ex ∈ server.serveCodec cc timeout text scheds fuel st, ex.request.Error = "" →
      ∀ f ∈ ex.written, f.1.Error ≠ "" → f.2 = Body.invalidRequest) ∧
    ((∀ s e s1, cc.ReadBody s = (Except.error e, s1) → e ≠ "") →
      (∀ sn svc mn mtype a v e, server.serviceMap sn = some svc →
        svc.method mn = some mtype → mtype.invoke a = some (v, some e) → e ≠ "") →
      ∀ ex ∈ server.serveCodec cc timeout text scheds fuel st, ∀ f ∈ ex.written,
        f.1.Error = "" → ∃ v, f.2 = Body.reply v) := by
  have hall : ∀ ex ∈ server.serveCodec cc timeout text scheds fuel st, ∀ f ∈ ex.written,
      f.1.ServiceMethod = ex.request.ServiceMethod ∧ f.1.Seq = ex.request.Seq ∧
      (f.2 = Body.invalidRequest ∨
        ∃ v, f.2 = Body.reply v ∧ f.1.Error = ex.request.Error) := by
    intro ex hex f hf
    rcases serveCodec_mem server cc timeout text scheds fuel st ex hex with
      ⟨_, _, h, err, _, rfl⟩ | ⟨_, _, req, k, _, rfl⟩
    · simp only [List.mem_singleton] at hf
      subst hf
      exact ⟨rfl, rfl, Or.inl rfl⟩
    · rcases handleRequest_frames server req timeout text (scheds k) f hf with
        ⟨v, _, rfl⟩ | ⟨v, err, _, rfl⟩ | rfl
      · exact ⟨rfl, rfl, Or.inr ⟨v, rfl, rfl⟩⟩
      · exact ⟨rfl, rfl, Or.inl rfl⟩
      · exact ⟨rfl, rfl, Or.inl rfl⟩
  refine ⟨hall, ?_, ?_, ?_, ?_, ?_⟩
  · intro h st0 err hh hf
    rw [Server.serveCodec, readRequest_of_unresolved server cc st st0 h err hh hf]
    rfl
  · intro h st0 err st1 hh hf hb
    rw [Server.serveCodec, readRequest_of_bad_body server cc st st0 st1 h err hh hf hb]
  · intro h st0 svc mtype argv st1 hh hf hb
    refine ⟨?_, ?_⟩
    · rw [Server.serveCodec, readRequest_of_body server cc st st0 st1 h svc mtype argv hh hf hb]
    · intro sched
      exact handleRequest_frames server ⟨h, argv, mtype, svc⟩ timeout text sched
  · intro ex hex hreq f hf hne
    rcases (hall ex hex f hf).2.2 with h | ⟨v, _, he⟩
    · exact h
    · exact absurd (he.trans hreq) hne
  · intro hbody hmeth ex hex f hf hempty
    rcases serveCodec_mem server cc timeout text scheds fuel st ex hex with
      ⟨st0, st1, h, err, hr, rfl⟩ | ⟨st0, st1, req, k, hr, rfl⟩
    · simp only [List.mem_singleton] at hf
      subst hf
      simp only at hempty
      rcases (readRequest_failed server cc st0 st1 h err hr).2 with ⟨hfs, _⟩ | ⟨_, hb⟩
      · exact absurd hempty (findService_err_ne_empty server _ _ hfs)
      · exact absurd hempty (hbody _ _ _ hb)
    · rcases handleRequest_frames server req timeout text (scheds k) f hf with
        ⟨v, _, rfl⟩ | ⟨v, err, hc, rfl⟩ | rfl
      · exact ⟨v, rfl⟩
      · obtain ⟨sn, mn, h1, h2⟩ := findService_ok_registered server _ _ _
          (readRequest_ok server cc st0 st1 req hr).2.1
        exact absurd hempty (hmeth sn req.svc mn req.mtype req.argv v err h1 h2 hc)
      · exact absurd hempty (append_ne_empty _ _ (by decide))

/-- C9 (amended), instance: the request `Foo.Sum` with `Seq` 7 is followed by a
message that is not a body; it is answered by the error frame with `Seq` 7 and
the loop continues with the next request, `Seq` 8 with the body 5, which is
answered by the reply 5. -/
theorem serveCodec_correlation_witness :
    (listCodec Int).ReadBody
        [Wire.header ⟨"", 0, ""⟩, Wire.header ⟨"Foo.Sum", 8, ""⟩, Wire.body 5]
      = (Except.error "type mismatch", [Wire.header ⟨"Foo.Sum", 8, ""⟩, Wire.body 5]) ∧
    fooServer.serveCodec (listCodec Int) 0 "0s"
        (fun _ => [Event.callReturns, Event.passCalled, Event.respond, Event.passSent]) (2 + 1)
        [Wire.header ⟨"Foo.Sum", 7, ""⟩, Wire.header ⟨"", 0, ""⟩,
          Wire.header ⟨"Foo.Sum", 8, ""⟩, Wire.body 5]
      = ⟨⟨"Foo.Sum", 7, ""⟩, [(⟨"Foo.Sum", 7, "type mismatch"⟩, Body.invalidRequest)]⟩ ::
        fooServer.serveCodec (listCodec Int) 0 "0s"
          (fun _ => [Event.callReturns, Event.passCalled, Event.respond, Event.passSent]) 2
          [Wire.header ⟨"Foo.Sum", 8, ""⟩, Wire.body 5] ∧
    fooServer.serveCodec (listCodec Int) 0 "0s"
        (fun _ => [Event.callReturns, Event.passCalled, Event.respond, Event.passSent]) 2
        [Wire.header ⟨"Foo.Sum", 8, ""⟩, Wire.body 5]
      = [⟨⟨"Foo.Sum", 8, ""⟩, [(⟨"Foo.Sum", 8, ""⟩, Body.reply 5)]⟩] :=
  ⟨rfl,
    (serveCodec_correlation fooServer (listCodec Int) 0 "0s"
      (fun _ => [Event.callReturns, Event.passCalled, Event.respond, Event.passSent]) 2
      [Wire.header ⟨"Foo.Sum", 7, ""⟩, Wire.header ⟨"", 0, ""⟩,
        Wire.header ⟨"Foo.Sum", 8, ""⟩, Wire.body 5]).2.2.1
      ⟨"Foo.Sum", 7, ""⟩ _ "type mismatch" _ rfl rfl rfl,
    by decide⟩

/-- C10: under every schedule of its two goroutines `handleRequest` has written
at most one frame, which is the method's own response or the timeout error; every
run can be carried on until no move is left; when no move is left exactly one
frame has been written (a method that never returns, with no timeout, is the one
case without an outcome), and with `handleTimeout = 0` it is the method's own
response; once `called` has been received the only frame ever written is the
method's response, and once the `select` has taken the timer case the only frame
ever written is the timeout error, whatever the method does later. -/
theorem handleRequest_one_frame {Val : Type} (server : Server Val) (req : request Val)
    (timeout : Int) (text : String) (sched : List Event) :
    ((server.handleRequest req timeout text sched).written.length ≤ 1 ∧
      ∀ f ∈ (server.handleRequest req timeout text sched).written,
        methodFrame req = some f ∨ f = timeoutFrame req text) ∧
    (∃ more, quiescent req (server.handleRequest req timeout text (sched ++ more)) = true) ∧
    (quiescent req (server.handleRequest req timeout text sched) = true →
      ((req.svc.call req.mtype req.argv).isSome = true ∨ timeout ≠ 0) →
      (server.handleRequest req timeout text sched).written.length = 1) ∧
    (quiescent req (server.handleRequest req timeout text sched) = true → timeout = 0 →
      (server.handleRequest req timeout text sched).written = (methodFrame req).toList) ∧
    (observedCompletion (server.handleRequest req timeout text sched) → ∀ more,
      (∀ f ∈ (server.handleRequest req timeout text (sched ++ more)).written,
        methodFrame req = some f) ∧
      (quiescent req (server.handleRequest req timeout text (sched ++ more)) = true →
        (server.handleRequest req timeout text (sched ++ more)).written
            = (methodFrame req).toList ∧
          (server.handleRequest req timeout text (sched ++ more)).written.length = 1)) ∧
    (observedTimeout (server.handleRequest req timeout text sched) → ∀ more,
      (∀ f ∈ (server.handleRequest req timeout text (sched ++ more)).written,
        f = timeoutFrame req text) ∧
      (quiescent req (server.handleRequest req timeout text (sched ++ more)) = true →
        (server.handleRequest req timeout text (sched ++ more)).written
          = [timeoutFrame req text])) := by
  have hinv := handleInv_handleRequest server req timeout text sched
  refine ⟨handleInv_written req timeout text _ hinv, ?_, ?_, ?_, ?_, ?_⟩
  · refine ⟨[Event.callReturns, Event.passCalled, Event.respond, Event.passSent,
      Event.timerFires, Event.writeTimeout], ?_⟩
    rw [handleRequest_append]
    exact handleInv_progress req timeout text _ hinv
  · intro hq
    exact (handleInv_quiescent req timeout text _ hinv hq).1
  · intro hq
    exact (handleInv_quiescent req timeout text _ hinv hq).2
  · intro ho more
    have hinv2 := handleInv_handleRequest server req timeout text (sched ++ more)
    have ho2 : observedCompletion (server.handleRequest req timeout text (sched ++ more)) := by
      rw [handleRequest_append]
      exact (observed_run req timeout text more _ hinv).2 ho
    exact observedCompletion_written req timeout text _ hinv2 ho2
  · intro ho more
    have hinv2 := handleInv_handleRequest server req timeout text (sched ++ more)
    have ho2 : observedTimeout (server.handleRequest req timeout text (sched ++ more)) := by
      rw [handleRequest_append]
      exact (observed_run req timeout text more _ hinv).1 ho
    exact observedTimeout_written req timeout text _ hinv2 ho2

/-- C10, instance: with a timeout of 1ms the timer case is taken first; the
method then returns, stays blocked on `called`, and the timeout error is the one
frame written. -/
theorem handleRequest_one_frame_witness :
    observedTimeout (fooServer.handleRequest
      ⟨⟨"Foo.Sum", 1, ""⟩, 3, ⟨fun a => some (a, none)⟩, ⟨"Foo", fun _ => none⟩⟩
      1000000 "1ms" [Event.timerFires]) ∧
    quiescent ⟨⟨"Foo.Sum", 1, ""⟩, 3, ⟨fun a => some (a, none)⟩, ⟨"Foo", fun _ => none⟩⟩
      (fooServer.handleRequest
        ⟨⟨"Foo.Sum", 1, ""⟩, 3, ⟨fun a => some (a, none)⟩, ⟨"Foo", fun _ => none⟩⟩
        1000000 "1ms"
        ([Event.timerFires] ++ [Event.writeTimeout, Event.callReturns, Event.passCalled,
          Event.respond])) = true ∧
    (fooServer.handleRequest
        ⟨⟨"Foo.Sum", 1, ""⟩, 3, ⟨fun a => some (a, none)⟩, ⟨"Foo", fun _ => none⟩⟩
        1000000 "1ms"
        ([Event.timerFires] ++ [Event.writeTimeout, Event.callReturns, Event.passCalled,
          Event.respond])).written
      = [(⟨"Foo.Sum", 1, "rpc server: request handle timeout: expect within 1ms"⟩,
          Body.invalidRequest)] :=
  have ho : observedTimeout (fooServer.handleRequest
      ⟨⟨"Foo.Sum", 1, ""⟩, 3, ⟨fun a => some (a, none)⟩, ⟨"Foo", fun _ => none⟩⟩
      1000000 "1ms" [Event.timerFires]) := Or.inl rfl
  have hq : quiescent
      ⟨⟨"Foo.Sum", 1, ""⟩, 3, ⟨fun a => some (a, none)⟩, ⟨"Foo", fun _ => none⟩⟩
      (fooServer.handleRequest
        ⟨⟨"Foo.Sum", 1, ""⟩, 3, ⟨fun a => some (a, none)⟩, ⟨"Foo", fun _ => none⟩⟩
        1000000 "1ms"
        ([Event.timerFires] ++ [Event.writeTimeout, Event.callReturns, Event.passCalled,
          Event.respond])) = true := by
    decide
  ⟨ho, hq, ((handleRequest_one_frame fooServer
      ⟨⟨"Foo.Sum", 1, ""⟩, 3, ⟨fun a => some (a, none)⟩, ⟨"Foo", fun _ => none⟩⟩
      1000000 "1ms" [Event.timerFires]).2.2.2.2.2 ho _).2 hq⟩

/-- C11: when the service map already holds a descriptor under the name of the
new receiver, `Register` returns the already-defined error and leaves the server
as it was, so the name still maps to the descriptor registered first and every
other entry is unchanged; when the name is not present, `Register` returns a nil
error, the name maps to the new descriptor and every other entry is unchanged. -/
theorem Register_duplicate_rejected {Val R : Type} (server : Server Val)
    (newService : R → service Val) (rcvr : R) :
    (∀ original, server.serviceMap (newService rcvr).name = some original →
      server.Register newService rcvr =
        (some ("rpc: service already defined: " ++ (newService rcvr).name), server) ∧
      (server.Register newService rcvr).2.serviceMap (newService rcvr).name
        = some original) ∧
    (server.serviceMap (newService rcvr).name = none →
      (server.Register newService rcvr).1 = none ∧
      (server.Register newService rcvr).2.serviceMap (newService rcvr).name
        = some (newService rcvr) ∧
      ∀ other, other ≠ (newService rcvr).name →
        (server.Register newService rcvr).2.serviceMap other = server.serviceMap other) := by
  constructor
  · intro original h
    have e : server.Register newService rcvr =
        (some ("rpc: service already defined: " ++ (newService rcvr).name), server) := by
      simp only [Server.Register, LoadOrStore, h]
    exact ⟨e, by rw [e]; exact h⟩
  · intro h
    have e : server.Register newService rcvr =
        (none, ⟨fun k => if k = (newService rcvr).name then some (newService rcvr)
          else server.serviceMap k⟩) := by
      simp only [Server.Register, LoadOrStore, h]
    rw [e]
    refine ⟨rfl, by simp, ?_⟩
    intro other hne
    simp [hne]

/-- C11, instance: `Foo` is registered in `fooServer`, so registering a receiver
named `Foo` again is refused and `Foo.Sum` still resolves; a receiver named `Bar`
is accepted. -/
theorem Register_duplicate_rejected_witness :
    (fooServer.Register (fun name : String => (⟨name, fun _ => none⟩ : service Int)) "Foo").1
      = some "rpc: service already defined: Foo" ∧
    (((fooServer.Register (fun name : String => (⟨name, fun _ => none⟩ : service Int))
      "Foo").2.findService "Foo.Sum").err = none) ∧
    (fooServer.Register (fun name : String => (⟨name, fun _ => none⟩ : service Int)) "Bar").1
      = none :=
  have hfoo : ∃ original, fooServer.serviceMap "Foo" = some original := ⟨_, rfl⟩
  have hbar : fooServer.serviceMap "Bar" = none := rfl
  ⟨by
      obtain ⟨original, h⟩ := hfoo
      rw [((Register_duplicate_rejected fooServer
        (fun name : String => (⟨name, fun _ => none⟩ : service Int)) "Foo").1 original h).1]
      rfl,
    by decide,
    ((Register_duplicate_rejected fooServer
      (fun name : String => (⟨name, fun _ => none⟩ : service Int)) "Bar").2 hbar).1⟩

/-- C12: for a decoded `Option`, `ServeConn` runs the serve loop, on the codec
built by the constructor found, exactly when the magic number is `MagicNumber`
and `NewCodecFuncMap` has a constructor for the codec type; on another magic
number it returns after the invalid-magic-number log, on a codec type without a
constructor after the invalid-codec-type log, in both cases with no header read
and no frame written; with the map as `init` fills it only `GobType` has a
constructor, so the reserved `JsonType` is refused. -/
theorem ServeConn_handshake {σ Val : Type} (server : Server Val)
    (funcMap : CodecType → Option (NewCodecFunc σ Val)) (opt : ConnOption) (st : σ)
    (text : String) (scheds : Nat → List Event) (fuel : Nat) :
    ((∃ exchanges, server.ServeConn funcMap (Except.ok opt) st text scheds fuel
        = Served.serving exchanges) ↔
      (opt.MagicNumber = MagicNumber ∧ ∃ f, funcMap opt.CodecType = some f)) ∧
    (∀ f, opt.MagicNumber = MagicNumber → funcMap opt.CodecType = some f →
      server.ServeConn funcMap (Except.ok opt) st text scheds fuel
        = Served.serving (server.serveCodec f opt.HandleTimeout text scheds fuel st)) ∧
    (opt.MagicNumber ≠ MagicNumber →
      server.ServeConn funcMap (Except.ok opt) st text scheds fuel
        = Served.invalidMagic opt.MagicNumber ∧
      (server.ServeConn funcMap (Except.ok opt) st text scheds fuel).exchanges = []) ∧
    (opt.MagicNumber = MagicNumber → funcMap opt.CodecType = none →
      server.ServeConn funcMap (Except.ok opt) st text scheds fuel
        = Served.invalidCodec opt.CodecType ∧
      (server.ServeConn funcMap (Except.ok opt) st text scheds fuel).exchanges = []) ∧
    (∀ gob : NewCodecFunc σ Val,
      (∀ t, (∃ f, NewCodecFuncMap gob t = some f) ↔ t = GobType) ∧
      NewCodecFuncMap gob JsonType = none ∧
      (opt.MagicNumber = MagicNumber → opt.CodecType = JsonType →
        server.ServeConn (NewCodecFuncMap gob) (Except.ok opt) st text scheds fuel
          = Served.invalidCodec JsonType)) := by
  have hmagic : opt.MagicNumber ≠ MagicNumber →
      server.ServeConn funcMap (Except.ok opt) st text scheds fuel
        = Served.invalidMagic opt.MagicNumber := by
    intro h
    simp only [Server.ServeConn, h, ne_eq, not_false_eq_true, if_true]
  have hcodec : opt.MagicNumber = MagicNumber → funcMap opt.CodecType = none →
      server.ServeConn funcMap (Except.ok opt) st text scheds fuel
        = Served.invalidCodec opt.CodecType := by
    intro h1 h2
    simp only [Server.ServeConn, h1, h2, ne_eq, not_true_eq_false, if_false]
  have hserve : ∀ f, opt.MagicNumber = MagicNumber → funcMap opt.CodecType = some f →
      server.ServeConn funcMap (Except.ok opt) st text scheds fuel
        = Served.serving (server.serveCodec f opt.HandleTimeout text scheds fuel st) := by
    intro f h1 h2
    simp only [Server.ServeConn, h1, h2, ne_eq, not_true_eq_false, if_false]
  refine ⟨⟨?_, ?_⟩, hserve, ?_, ?_, ?_⟩
  · rintro ⟨exchanges, he⟩
    by_cases h1 : opt.MagicNumber = MagicNumber
    · cases h2 : funcMap opt.CodecType with
      | none => rw [hcodec h1 h2] at he; cases he
      | some f => exact ⟨h1, f, rfl⟩
    · rw [hmagic h1] at he; cases he
  · rintro ⟨h1, f, h2⟩
    exact ⟨_, hserve f h1 h2⟩
  · intro h
    exact ⟨hmagic h, by rw [hmagic h]; rfl⟩
  · intro h1 h2
    exact ⟨hcodec h1 h2, by rw [hcodec h1 h2]; rfl⟩
  · intro gob
    have hjson : NewCodecFuncMap gob JsonType = none := by
      simp [NewCodecFuncMap, JsonType, GobType]
    refine ⟨?_, hjson, ?_⟩
    · intro t
      unfold NewCodecFuncMap
      by_cases ht : t = GobType <;> simp [ht]
    · intro h1 h2
      simp only [Server.ServeConn, h1, h2, hjson, ne_eq, not_true_eq_false, if_false]

/-- C12, instance: an `Option` with the right magic number and the tag
`application/json` is refused by the map of `init`, one with the tag
`application/gob` is served, and one with the magic number 1 is refused. -/
theorem ServeConn_handshake_witness :
    fooServer.ServeConn (NewCodecFuncMap (listCodec Int))
        (Except.ok ⟨MagicNumber, JsonType, 0, 0⟩) [] "0s" (fun _ => []) 3
      = Served.invalidCodec JsonType ∧
    fooServer.ServeConn (NewCodecFuncMap (listCodec Int))
        (Except.ok ⟨MagicNumber, GobType, 0, 0⟩) [] "0s" (fun _ => []) 3
      = Served.serving [] ∧
    fooServer.ServeConn (NewCodecFuncMap (listCodec Int))
        (Except.ok ⟨1, GobType, 0, 0⟩) [] "0s" (fun _ => []) 3
      = Served.invalidMagic 1 :=
  ⟨((ServeConn_handshake fooServer (NewCodecFuncMap (listCodec Int))
      ⟨MagicNumber, JsonType, 0, 0⟩ [] "0s" (fun _ => []) 3).2.2.2.2 (listCodec Int)).2.2
      rfl rfl,
    rfl,
    ((ServeConn_handshake fooServer (NewCodecFuncMap (listCodec Int))
      ⟨1, GobType, 0, 0⟩ [] "0s" (fun _ => []) 3).2.2.1 (by decide)).1⟩

end rpc

namespace gee

theorem childrenDepthOk_iff (children : List node) (d : Nat) :
    childrenDepthOk children d ↔ ∀ c ∈ children, c.depthOk d := by
  induction children with
  | nil => simp [childrenDepthOk]
  | cons c cs ih => simp [childrenDepthOk, ih]

theorem node.depthOk_iff (n : node) (d : Nat) :
    n.depthOk d ↔
      (n.pattern ≠ "" → (parsePattern n.pattern).length = d) ∧
        ∀ c ∈ n.children, c.depthOk (d + 1) := by
  cases n with
  | mk pattern part children isWild =>
    simp [node.depthOk, childrenDepthOk_iff, node.pattern, node.children]

/-- No part returned by `parsePattern` is empty. -/
theorem parseItems_ne_empty (vs : List String) : ∀ p ∈ parseItems vs, p.data ≠ [] := by
  induction vs with
  | nil => intro p hp; simp [parseItems] at hp
  | cons item vs ih =>
    intro p hp
    unfold parseItems at hp
    by_cases h : item ≠ ""
    · rw [if_pos h] at hp
      have hd : item.data ≠ [] := fun hd => h (String.ext hd)
      by_cases hs : item.data.head? = some '*'
      · rw [if_pos hs] at hp
        simp only [List.mem_singleton] at hp
        rw [hp]; exact hd
      · rw [if_neg hs] at hp
        rcases List.mem_cons.mp hp with rfl | hp
        · exact hd
        · exact ih p hp
    · rw [if_neg h] at hp
      exact ih p hp

/-- Only the last part returned by `parsePattern` can start with `*`. -/
theorem parseItems_star_last (vs : List String) :
    ∀ p ∈ (parseItems vs).dropLast, p.data.head? ≠ some '*' := by
  induction vs with
  | nil => intro p hp; simp [parseItems] at hp
  | cons item vs ih =>
    intro p hp
    unfold parseItems at hp
    by_cases h : item ≠ ""
    · rw [if_pos h] at hp
      by_cases hs : item.data.head? = some '*'
      · rw [if_pos hs] at hp
        simp at hp
      · rw [if_neg hs] at hp
        by_cases hne : parseItems vs = []
        · rw [hne] at hp; simp at hp
        · rw [List.dropLast_cons_of_ne_nil hne] at hp
          rcases List.mem_cons.mp hp with rfl | hp
          · exact hs
          · exact ih p hp
    · rw [if_neg h] at hp
      exact ih p hp

theorem parsePattern_ne_empty (pattern : String) : ∀ p ∈ parsePattern pattern, p.data ≠ [] :=
  parseItems_ne_empty _

theorem parsePattern_star_last (pattern : String) :
    ∀ p ∈ (parsePattern pattern).dropLast, p.data.head? ≠ some '*' :=
  parseItems_star_last _

theorem Run.andThen_eq_done {α β : Type} (r : Run α) (f : α → Run β) (b : β) :
    r.andThen f = Run.done b ↔ ∃ a, r = Run.done a ∧ f a = Run.done b := by
  cases r with
  | panic => simp [Run.andThen]
  | done a => simp [Run.andThen]

theorem mem_replaceMatched (part : String) (x : node) (cs : List node) :
    ∀ c ∈ replaceMatched part x cs, c = x ∨ c ∈ cs := by
  induction cs with
  | nil => intro c hc; simp [replaceMatched] at hc
  | cons c0 cs ih =>
    intro c hc
    unfold replaceMatched at hc
    by_cases hm : node.matches part c0 = true
    · rw [if_pos hm] at hc
      rcases List.mem_cons.mp hc with h | h
      · exact Or.inl h
      · exact Or.inr (List.mem_cons_of_mem _ h)
    · rw [if_neg hm] at hc
      rcases List.mem_cons.mp hc with h | h
      · exact Or.inr (h ▸ List.mem_cons_self _ _)
      · rcases ih c h with h1 | h1
        · exact Or.inl h1
        · exact Or.inr (List.mem_cons_of_mem _ h1)

/-- The method `insert` keeps every pattern at the depth of its number of parts. -/
theorem insertAux_depthOk (pattern : String) (parts : List String)
    (hlen : (parsePattern pattern).length = parts.length) (fuel : Nat) :
    ∀ (n : node) (height : Nat) (n1 : node),
      node.insertAux pattern parts fuel n height = Run.done n1 →
      n.depthOk height → n1.depthOk height := by
  induction fuel with
  | zero =>
    intro n height n1 h hok
    unfold node.insertAux at h
    by_cases hh : parts.length = height
    · rw [if_pos hh] at h
      simp only [Run.done.injEq] at h
      rw [← h, node.depthOk_iff]
      rw [node.depthOk_iff] at hok
      exact ⟨fun _ => hlen.trans hh, hok.2⟩
    · rw [if_neg hh] at h
      cases h
  | succ fuel ih =>
    intro n height n1 h hok
    unfold node.insertAux at h
    by_cases hh : parts.length = height
    · rw [if_pos hh] at h
      simp only [Run.done.injEq] at h
      rw [← h, node.depthOk_iff]
      rw [node.depthOk_iff] at hok
      exact ⟨fun _ => hlen.trans hh, hok.2⟩
    · rw [if_neg hh] at h
      dsimp only at h
      rw [node.depthOk_iff] at hok
      cases hp : parts.get? height with
      | none => rw [hp] at h; cases h
      | some part =>
        rw [hp] at h
        dsimp only at h
        cases hm : n.matchChild part with
        | some child =>
          rw [hm] at h
          dsimp only at h
          rw [Run.andThen_eq_done] at h
          obtain ⟨child1, hrec, hdone⟩ := h
          simp only [Run.done.injEq] at hdone
          have hmem : child ∈ n.children := List.mem_of_find?_eq_some hm
          have hc1 := ih child (height + 1) child1 hrec (hok.2 child hmem)
          rw [← hdone, node.depthOk_iff]
          refine ⟨hok.1, ?_⟩
          intro c hc
          rcases mem_replaceMatched part child1 n.children c hc with rfl | hc
          · exact hc1
          · exact hok.2 c hc
        | none =>
          rw [hm] at h
          dsimp only at h
          cases hd : part.data with
          | nil => rw [hd] at h; cases h
          | cons c0 rest =>
            rw [hd] at h
            dsimp only at h
            rw [Run.andThen_eq_done] at h
            obtain ⟨child1, hrec, hdone⟩ := h
            simp only [Run.done.injEq] at hdone
            have hnew : (node.mk "" part [] (decide (c0 = ':') || decide (c0 = '*'))).depthOk
                (height + 1) := by
              rw [node.depthOk_iff]
              simp [node.pattern, node.children]
            have hc1 := ih _ (height + 1) child1 hrec hnew
            rw [← hdone, node.depthOk_iff]
            refine ⟨hok.1, ?_⟩
            intro c hc
            simp only [node.children, List.mem_append, List.mem_singleton] at hc
            rcases hc with hc | rfl
            · exact hok.2 c hc
            · exact hc1

/-- The method `insert` does not panic on parts that are not empty. -/
theorem insertAux_done (pattern : String) (parts : List String)
    (hparts : ∀ p ∈ parts, p.data ≠ []) (fuel : Nat) :
    ∀ (n : node) (height : Nat), fuel + height = parts.length →
      ∃ n1, node.insertAux pattern parts fuel n height = Run.done n1 := by
  induction fuel with
  | zero =>
    intro n height hf
    unfold node.insertAux
    have hh : parts.length = height := by omega
    rw [if_pos hh]
    exact ⟨_, rfl⟩
  | succ fuel ih =>
    intro n height hf
    unfold node.insertAux
    have hh : ¬ parts.length = height := by omega
    rw [if_neg hh]
    dsimp only
    have hlt : height < parts.length := by omega
    have hp : parts.get? height = some (parts.get ⟨height, hlt⟩) := List.get?_eq_get hlt
    rw [hp]
    dsimp only
    cases hm : n.matchChild (parts.get ⟨height, hlt⟩) with
    | some child =>
      dsimp only
      obtain ⟨child1, h1⟩ := ih child (height + 1) (by omega)
      rw [h1]
      exact ⟨_, rfl⟩
    | none =>
      dsimp only
      have hne := hparts _ (List.get_mem parts height hlt)
      cases hd : (parts.get ⟨height, hlt⟩).data with
      | nil => exact absurd hd hne
      | cons c0 rest =>
        dsimp only
        obtain ⟨child1, h1⟩ := ih
          (node.mk "" (parts.get ⟨height, hlt⟩) [] (decide (c0 = ':') || decide (c0 = '*')))
          (height + 1) (by omega)
        rw [h1]
        exact ⟨_, rfl⟩

theorem firstFound_some (rs : List (Run (Option node))) (m : node)
    (h : firstFound rs = Run.done (some m)) : Run.done (some m) ∈ rs := by
  induction rs with
  | nil => simp [firstFound] at h
  | cons r rs ih =>
    cases r with
    | panic => simp [firstFound] at h
    | done a =>
      cases a with
      | none =>
        simp only [firstFound] at h
        exact List.mem_cons_of_mem _ (ih h)
      | some x =>
        simp only [firstFound, Run.done.injEq, Option.some.injEq] at h
        rw [h]
        exact List.mem_cons_self _ _

theorem firstFound_ne_panic (rs : List (Run (Option node)))
    (h : ∀ r ∈ rs, r ≠ Run.panic) : firstFound rs ≠ Run.panic := by
  induction rs with
  | nil => simp [firstFound]
  | cons r rs ih =>
    cases r with
    | panic => exact absurd rfl (h _ (List.mem_cons_self _ _))
    | done a =>
      cases a with
      | none =>
        simp only [firstFound]
        exact ih (fun r hr => h r (List.mem_cons_of_mem _ hr))
      | some x => simp [firstFound]

/-- A node found by `search` carries a pattern with no more parts than the path. -/
theorem searchAux_found (parts : List String) (fuel : Nat) :
    ∀ (n : node) (height : Nat) (m : node),
      node.searchAux parts fuel n height = Run.done (some m) →
      n.depthOk height → height ≤ parts.length →
      m.pattern ≠ "" ∧ (parsePattern m.pattern).length ≤ parts.length := by
  induction fuel with
  | zero =>
    intro n height m h hok hle
    unfold node.searchAux at h
    by_cases hc : parts.length = height ∨ n.part.data.head? = some '*'
    · rw [if_pos hc] at h
      by_cases hp : n.pattern = ""
      · rw [if_pos hp] at h; cases h
      · rw [if_neg hp] at h
        simp only [Run.done.injEq, Option.some.injEq] at h
        rw [node.depthOk_iff] at hok
        rw [← h]
        exact ⟨hp, by rw [hok.1 hp]; exact hle⟩
    · rw [if_neg hc] at h
      cases h
  | succ fuel ih =>
    intro n height m h hok hle
    unfold node.searchAux at h
    by_cases hc : parts.length = height ∨ n.part.data.head? = some '*'
    · rw [if_pos hc] at h
      by_cases hp : n.pattern = ""
      · rw [if_pos hp] at h; cases h
      · rw [if_neg hp] at h
        simp only [Run.done.injEq, Option.some.injEq] at h
        rw [node.depthOk_iff] at hok
        rw [← h]
        exact ⟨hp, by rw [hok.1 hp]; exact hle⟩
    · rw [if_neg hc] at h
      dsimp only at h
      have hne : ¬ parts.length = height := fun e => hc (Or.inl e)
      cases hp : parts.get? height with
      | none => rw [hp] at h; cases h
      | some part =>
        rw [hp] at h
        dsimp only at h
        have hmem := firstFound_some _ m h
        rw [List.mem_map] at hmem
        obtain ⟨child, hchild, hrec⟩ := hmem
        have hin : child ∈ n.children := (List.mem_filter.mp hchild).1
        rw [node.depthOk_iff] at hok
        exact ih child (height + 1) m hrec (hok.2 child hin) (by omega)

/-- The method `search` never indexes the parts of the path out of range. -/
theorem searchAux_ne_panic (parts : List String) (fuel : Nat) :
    ∀ (n : node) (height : Nat), fuel + height = parts.length →
      node.searchAux parts fuel n height ≠ Run.panic := by
  induction fuel with
  | zero =>
    intro n height hf
    unfold node.searchAux
    have hh : parts.length = height := by omega
    rw [if_pos (Or.inl hh)]
    by_cases hp : n.pattern = "" <;> simp [hp]
  | succ fuel ih =>
    intro n height hf
    unfold node.searchAux
    by_cases hc : parts.length = height ∨ n.part.data.head? = some '*'
    · rw [if_pos hc]
      by_cases hp : n.pattern = "" <;> simp [hp]
    · rw [if_neg hc]
      dsimp only
      have hlt : height < parts.length := by omega
      rw [List.get?_eq_get hlt]
      dsimp only
      apply firstFound_ne_panic
      intro r hr
      rw [List.mem_map] at hr
      obtain ⟨child, _, rfl⟩ := hr
      exact ih child (height + 1) (by omega)

/-- One turn of the loop of `getRoute` on a part whose first character is `c`. -/
theorem bindParams_cons (sp : List String) (part : String) (rest : List String) (index : Nat)
    (params : Params) (c : Char) (name : List Char) (hd : part.data = c :: name) :
    bindParams sp (part :: rest) index params =
      (if c = ':' then
          match sp.get? index with
          | none => Run.panic
          | some v => Run.done fun k => if k = String.mk name then some v else params k
        else Run.done params).andThen fun params1 =>
        if c = '*' ∧ 1 < part.data.length then
          if index ≤ sp.length then
            Run.done fun k =>
              if k = String.mk name then some ("/".intercalate (sp.drop index))
              else params1 k
          else Run.panic
        else bindParams sp rest (index + 1) params1 := by
  rw [bindParams]
  split
  · next h => rw [hd] at h; cases h
  · next c1 name1 h =>
    rw [hd] at h
    simp only [List.cons.injEq] at h
    obtain ⟨rfl, rfl⟩ := h
    rfl

theorem colon_data (name : String) : (":" ++ name).data = ':' :: name.data := by
  simp [String.data_append]

theorem star_data (name : String) : ("*" ++ name).data = '*' :: name.data := by
  simp [String.data_append]

/-- The loop of `getRoute` does not panic when the pattern has no more parts than
the path. -/
theorem bindParams_done (sp : List String) (ps : List String) :
    ∀ (index : Nat) (params : Params), (∀ p ∈ ps, p.data ≠ []) →
      index + ps.length ≤ sp.length → ∃ out, bindParams sp ps index params = Run.done out := by
  induction ps with
  | nil => intro index params _ _; exact ⟨params, rfl⟩
  | cons part rest ih =>
    intro index params hne hlen
    simp only [List.length_cons] at hlen
    cases hd : part.data with
    | nil => exact absurd hd (hne part (List.mem_cons_self _ _))
    | cons c name =>
      rw [bindParams_cons sp part rest index params c name hd]
      have hlt : index < sp.length := by omega
      have hrest : ∀ p ∈ rest, p.data ≠ [] := fun p hp => hne p (List.mem_cons_of_mem _ hp)
      by_cases hc : c = ':'
      · rw [if_pos hc, List.get?_eq_get hlt]
        simp only [Run.andThen]
        by_cases hs : c = '*' ∧ 1 < part.data.length
        · rw [if_pos hs, if_pos (by omega)]; exact ⟨_, rfl⟩
        · rw [if_neg hs]; exact ih (index + 1) _ hrest (by omega)
      · rw [if_neg hc]
        simp only [Run.andThen]
        by_cases hs : c = '*' ∧ 1 < part.data.length
        · rw [if_pos hs, if_pos (by omega)]; exact ⟨_, rfl⟩
        · rw [if_neg hs]; exact ih (index + 1) _ hrest (by omega)

/-- The loop of `getRoute` leaves a name alone that no part of the pattern
carries. -/
theorem bindParams_frame (sp : List String) (name : String) (ps : List String) :
    ∀ (index : Nat) (params out : Params), bindParams sp ps index params = Run.done out →
      (∀ q ∈ ps, q ≠ ":" ++ name ∧ q ≠ "*" ++ name) → out name = params name := by
  induction ps with
  | nil =>
    intro index params out h _
    simp only [bindParams, Run.done.injEq] at h
    rw [h]
  | cons part rest ih =>
    intro index params out h hq
    have hpart := hq part (List.mem_cons_self _ _)
    have hrest : ∀ q ∈ rest, q ≠ ":" ++ name ∧ q ≠ "*" ++ name :=
      fun q hqm => hq q (List.mem_cons_of_mem _ hqm)
    cases hd : part.data with
    | nil => rw [bindParams] at h; simp [hd] at h
    | cons c nm =>
      rw [bindParams_cons sp part rest index params c nm hd, Run.andThen_eq_done] at h
      obtain ⟨params1, hb, hk⟩ := h
      have hp1 : params1 name = params name := by
        by_cases hc : c = ':'
        · rw [if_pos hc] at hb
          cases hg : sp.get? index with
          | none => rw [hg] at hb; cases hb
          | some v =>
            rw [hg] at hb
            simp only [Run.done.injEq] at hb
            have hne : name ≠ String.mk nm := by
              intro e
              apply hpart.1
              apply String.ext
              rw [colon_data, hd, hc, e]
            rw [← hb]
            simp [hne]
        · rw [if_neg hc] at hb
          simp only [Run.done.injEq] at hb
          rw [hb]
      by_cases hs : c = '*' ∧ 1 < part.data.length
      · rw [if_pos hs] at hk
        by_cases hi : index ≤ sp.length
        · rw [if_pos hi] at hk
          simp only [Run.done.injEq] at hk
          have hne : name ≠ String.mk nm := by
            intro e
            apply hpart.2
            apply String.ext
            rw [star_data, hd, hs.1, e]
          rw [← hk]
          simp [hne, hp1]
        · rw [if_neg hi] at hk; cases hk
      · rw [if_neg hs] at hk
        rw [ih (index + 1) params1 out hk hrest, hp1]

/-- A part `:name` at position `i` that no later part names again leaves
`params[name]` at the part of the path at that position. -/
theorem bindParams_colon (sp : List String) (name : String) (ps : List String) :
    ∀ (index i : Nat) (params out : Params), bindParams sp ps index params = Run.done out →
      (∀ p ∈ ps.dropLast, p.data.head? ≠ some '*') →
      ps.get? i = some (":" ++ name) →
      (∀ j q, i < j → ps.get? j = some q → q ≠ ":" ++ name ∧ q ≠ "*" ++ name) →
      (∃ v, sp.get? (index + i) = some v) ∧ out name = sp.get? (index + i) := by
  induction ps with
  | nil => intro index i params out _ _ hi _; simp at hi
  | cons part rest ih =>
    intro index i params out h hstar hi hlater
    cases hd : part.data with
    | nil => rw [bindParams] at h; simp [hd] at h
    | cons c nm =>
      rw [bindParams_cons sp part rest index params c nm hd, Run.andThen_eq_done] at h
      obtain ⟨params1, hb, hk⟩ := h
      cases i with
      | zero =>
        simp only [List.get?_cons_zero, Option.some.injEq] at hi
        have hdata : c :: nm = ':' :: name.data := by rw [← hd, hi, colon_data]
        simp only [List.cons.injEq] at hdata
        obtain ⟨hc, hnm⟩ := hdata
        rw [if_pos hc] at hb
        cases hg : sp.get? index with
        | none => rw [hg] at hb; cases hb
        | some v =>
          rw [hg] at hb
          simp only [Run.done.injEq] at hb
          have hns : ¬ (c = '*' ∧ 1 < part.data.length) := by
            rw [hc]; intro hs; exact absurd hs.1 (by decide)
          rw [if_neg hns] at hk
          have hrest : ∀ q ∈ rest, q ≠ ":" ++ name ∧ q ≠ "*" ++ name := by
            intro q hq
            obtain ⟨j, hj⟩ := List.get?_of_mem hq
            exact hlater (j + 1) q (Nat.succ_pos j) (by simpa using hj)
          have hout := bindParams_frame sp name rest (index + 1) params1 out hk hrest
          have hkey : String.mk nm = name := by rw [hnm]
          refine ⟨⟨v, by simpa using hg⟩, ?_⟩
          rw [hout, ← hb, Nat.add_zero, hg]
          simp [hkey]
      | succ i =>
        simp only [List.get?_cons_succ] at hi
        have hne : rest ≠ [] := by
          intro e; rw [e] at hi; simp at hi
        have hfirst : part.data.head? ≠ some '*' :=
          hstar part (by rw [List.dropLast_cons_of_ne_nil hne]; exact List.mem_cons_self _ _)
        have hns : ¬ (c = '*' ∧ 1 < part.data.length) := by
          intro hs
          apply hfirst
          rw [hd, hs.1]; rfl
        rw [if_neg hns] at hk
        have hstar1 : ∀ p ∈ rest.dropLast, p.data.head? ≠ some '*' := by
          intro p hp
          exact hstar p (by
            rw [List.dropLast_cons_of_ne_nil hne]; exact List.mem_cons_of_mem _ hp)
        have hlater1 : ∀ j q, i < j → rest.get? j = some q →
            q ≠ ":" ++ name ∧ q ≠ "*" ++ name := by
          intro j q hij hj
          exact hlater (j + 1) q (by omega) (by simpa using hj)
        have := ih (index + 1) i params1 out hk hstar1 hi hlater1
        rw [show index + 1 + i = index + (i + 1) by omega] at this
        exact this

/-- A part `*name` at position `i` leaves `params[name]` at the parts of the path
from that position on, joined by `/`. -/
theorem bindParams_star (sp : List String) (name : String) (hname : name ≠ "")
    (ps : List String) :
    ∀ (index i : Nat) (params out : Params), bindParams sp ps index params = Run.done out →
      (∀ p ∈ ps.dropLast, p.data.head? ≠ some '*') →
      ps.get? i = some ("*" ++ name) →
      out name = some ("/".intercalate (sp.drop (index + i))) := by
  induction ps with
  | nil => intro index i params out _ _ hi; simp at hi
  | cons part rest ih =>
    intro index i params out h hstar hi
    cases hd : part.data with
    | nil => rw [bindParams] at h; simp [hd] at h
    | cons c nm =>
      rw [bindParams_cons sp part rest index params c nm hd, Run.andThen_eq_done] at h
      obtain ⟨params1, hb, hk⟩ := h
      cases i with
      | zero =>
        simp only [List.get?_cons_zero, Option.some.injEq] at hi
        have hdata : c :: nm = '*' :: name.data := by rw [← hd, hi, star_data]
        simp only [List.cons.injEq] at hdata
        obtain ⟨hc, hnm⟩ := hdata
        have hlen : 1 < part.data.length := by
          have : name.data ≠ [] := fun e => hname (String.ext e)
          rw [hd, hnm]
          cases hn : name.data with
          | nil => exact absurd hn this
          | cons x xs => simp
        rw [if_pos ⟨hc, hlen⟩] at hk
        by_cases hidx : index ≤ sp.length
        · rw [if_pos hidx] at hk
          simp only [Run.done.injEq] at hk
          have hkey : String.mk nm = name := by rw [hnm]
          rw [← hk, Nat.add_zero]
          simp [hkey]
        · rw [if_neg hidx] at hk; cases hk
      | succ i =>
        simp only [List.get?_cons_succ] at hi
        have hne : rest ≠ [] := by
          intro e; rw [e] at hi; simp at hi
        have hfirst : part.data.head? ≠ some '*' :=
          hstar part (by rw [List.dropLast_cons_of_ne_nil hne]; exact List.mem_cons_self _ _)
        have hns : ¬ (c = '*' ∧ 1 < part.data.length) := by
          intro hs
          apply hfirst
          rw [hd, hs.1]; rfl
        rw [if_neg hns] at hk
        have hstar1 : ∀ p ∈ rest.dropLast, p.data.head? ≠ some '*' := by
          intro p hp
          exact hstar p (by
            rw [List.dropLast_cons_of_ne_nil hne]; exact List.mem_cons_of_mem _ hp)
        have := ih (index + 1) i params1 out hk hstar1 hi
        rw [show index + 1 + i = index + (i + 1) by omega] at this
        exact this

/-- A call of `addRoute` does not panic and keeps every pattern of every trie at
the depth of its number of parts. -/
theorem addRoute_done {H : Type} (r : router H) (method pattern : String) (handler : H)
    (hok : ∀ m root, r.roots m = some root → root.depthOk 0) :
    ∃ r1, r.addRoute method pattern handler = Run.done r1 ∧
      ∀ m root, r1.roots m = some root → root.depthOk 0 := by
  have hroot : (match r.roots method with
      | some root => root
      | none => node.mk "" "" [] false).depthOk 0 := by
    cases hr : r.roots method with
    | some root => exact hok method root hr
    | none =>
      rw [node.depthOk_iff]
      simp [node.pattern, node.children]
  obtain ⟨root1, h1⟩ := insertAux_done pattern (parsePattern pattern)
    (parsePattern_ne_empty pattern) ((parsePattern pattern).length - 0)
    (match r.roots method with
      | some root => root
      | none => node.mk "" "" [] false) 0 (by omega)
  have hok1 : root1.depthOk 0 :=
    insertAux_depthOk pattern (parsePattern pattern) rfl _ _ 0 root1 h1 hroot
  refine ⟨{ roots := fun m => if m = method then some root1 else r.roots m,
            handlers := fun k => if k = method ++ "-" ++ pattern then some handler
              else r.handlers k }, ?_, ?_⟩
  · simp only [router.addRoute, node.insert, h1, Run.andThen]
  · intro m root hm
    by_cases hmm : m = method
    · simp only [hmm, if_true, Option.some.injEq] at hm
      rw [← hm]; exact hok1
    · simp only [hmm, if_false] at hm
      exact hok m root hm

theorem addRoutes_done {H : Type} (routes : List (String × String × H)) :
    ∀ r : router H, (∀ m root, r.roots m = some root → root.depthOk 0) →
      ∃ r1, router.addRoutes routes r = Run.done r1 ∧
        ∀ m root, r1.roots m = some root → root.depthOk 0 := by
  induction routes with
  | nil => intro r hok; exact ⟨r, rfl, hok⟩
  | cons route rest ih =>
    intro r hok
    obtain ⟨method, pattern, handler⟩ := route
    obtain ⟨r1, h1, hok1⟩ := addRoute_done r method pattern handler hok
    obtain ⟨r2, h2, hok2⟩ := ih r1 hok1
    exact ⟨r2, by simp only [router.addRoutes, h1, Run.andThen, h2], hok2⟩

/-- On a router whose tries keep every pattern at the depth of its number of
parts, `getRoute` does not panic, and the node it returns has a pattern with no
more parts than the path, whose parameters are bound from the path. -/
theorem getRoute_of_depthOk {H : Type} (r : router H) (method path : String)
    (hok : ∀ m root, r.roots m = some root → root.depthOk 0) :
    r.getRoute method path = Run.done none ∨
    ∃ n params, r.getRoute method path = Run.done (some (n, params)) ∧
      (parsePattern n.pattern).length ≤ (parsePattern path).length ∧
      (∀ i name, (parsePattern n.pattern).get? i = some (":" ++ name) →
        (∀ j q, i < j → (parsePattern n.pattern).get? j = some q →
          q ≠ ":" ++ name ∧ q ≠ "*" ++ name) →
        (∃ v, (parsePattern path).get? i = some v) ∧
          params name = (parsePattern path).get? i) ∧
      (∀ i name, name ≠ "" → (parsePattern n.pattern).get? i = some ("*" ++ name) →
        params name = some ("/".intercalate ((parsePattern path).drop i))) := by
  unfold router.getRoute
  dsimp only
  cases hr : r.roots method with
  | none => exact Or.inl rfl
  | some root =>
    dsimp only
    have hnp := searchAux_ne_panic (parsePattern path) ((parsePattern path).length - 0)
      root 0 (by omega)
    cases hs : node.searchAux (parsePattern path) ((parsePattern path).length - 0) root 0 with
    | panic => exact absurd hs hnp
    | done found =>
      cases found with
      | none =>
        left
        simp only [node.search, hs, Run.andThen]
      | some n =>
        right
        obtain ⟨_, hlen⟩ := searchAux_found (parsePattern path) _ root 0 n hs
          (hok method root hr) (Nat.zero_le _)
        obtain ⟨params, hb⟩ := bindParams_done (parsePattern path) (parsePattern n.pattern) 0
          (fun _ => none) (parsePattern_ne_empty n.pattern) (by omega)
        refine ⟨n, params, ?_, hlen, ?_, ?_⟩
        · simp only [node.search, hs, Run.andThen, hb]
        · intro i name hi hlater
          have := bindParams_colon (parsePattern path) name (parsePattern n.pattern) 0 i
            (fun _ => none) params hb (parsePattern_star_last n.pattern) hi hlater
          simpa using this
        · intro i name hname hi
          have := bindParams_star (parsePattern path) name hname (parsePattern n.pattern) 0 i
            (fun _ => none) params hb (parsePattern_star_last n.pattern) hi
          simpa using this

/-- C13 (the code at the failing input): with the route `/hello/:name` alone,
`getRoutes` lists it and `/hello/bob` resolves to it; after `/hello/world` is
added, `insert` descends into the wildcard child `:name` and stores the new
pattern there, so `getRoutes` lists `/hello/world` only, `/hello/bob` resolves to
the node of `/hello/world`, and no node carries `/hello/:name`, whose handler is
still in the handler table. Added in the other order, the same two routes are
both listed. -/
theorem addRoute_overwrites_wildcard_route :
    ((router.addRoutes [("GET", "/hello/:name", 1)] (newRouter Nat)).toOption.map
      fun r => r.patterns "GET") = some ["/hello/:name"] ∧
    ((router.addRoutes [("GET", "/hello/:name", 1)] (newRouter Nat)).toOption.bind
      fun r => (r.getRoute "GET" "/hello/bob").toOption.map
        fun found => found.map fun np => (np.1.pattern, np.2 "name"))
      = some (some ("/hello/:name", some "bob")) ∧
    ((router.addRoutes [("GET", "/hello/:name", 1), ("GET", "/hello/world", 2)]
      (newRouter Nat)).toOption.map fun r => r.patterns "GET") = some ["/hello/world"] ∧
    ((router.addRoutes [("GET", "/hello/:name", 1), ("GET", "/hello/world", 2)]
      (newRouter Nat)).toOption.bind
      fun r => (r.getRoute "GET" "/hello/bob").toOption.map
        fun found => found.map fun np => (np.1.pattern, np.2 "name"))
      = some (some ("/hello/world", none)) ∧
    ((router.addRoutes [("GET", "/hello/:name", 1), ("GET", "/hello/world", 2)]
      (newRouter Nat)).toOption.map
      fun r => (r.handlers "GET-/hello/:name", r.handlers "GET-/hello/world"))
      = some (some 1, some 2) ∧
    ((router.addRoutes [("GET", "/hello/world", 2), ("GET", "/hello/:name", 1)]
      (newRouter Nat)).toOption.map fun r => r.patterns "GET")
      = some ["/hello/world", "/hello/:name"] := by
  decide

/-- C14 (as stated, refuted): with the route `/:a/:a` and the path `/x/y`,
`getRoute` returns the node of that pattern, whose part at position 0 is `:a`,
and `params[a]` is `y`, the part of the path at position 1, not `x`, the part at
position 0. -/
theorem getRoute_repeated_name_keeps_last :
    ((router.addRoutes [("GET", "/:a/:a", 1)] (newRouter Nat)).toOption.bind
      fun r => (r.getRoute "GET" "/x/y").toOption.map
        fun found => found.map fun np => (parsePattern np.1.pattern, np.2 "a"))
      = some (some ([":a", ":a"], some "y")) ∧
    parsePattern "/x/y" = ["x", "y"] := by
  decide

/-- C14 (amended): a router built by `addRoute` calls alone is built without a
panic, and on it `getRoute` never indexes the parts of the path out of range, for
every method and path; whenever it returns a node, the pattern of the node has at
most as many parts as the path, a part `:name` at position `i` that no later part
of the pattern names again leaves `params[name]` at the part of the path at
position `i`, and a part `*name` at position `i` leaves `params[name]` at the
parts of the path from `i` on joined by `/`. -/
theorem getRoute_total {H : Type} (routes : List (String × String × H))
    (method path : String) :
    ∃ r, router.addRoutes routes (newRouter H) = Run.done r ∧
      (r.getRoute method path = Run.done none ∨
        ∃ n params, r.getRoute method path = Run.done (some (n, params)) ∧
          (parsePattern n.pattern).length ≤ (parsePattern path).length ∧
          (∀ i name, (parsePattern n.pattern).get? i = some (":" ++ name) →
            (∀ j q, i < j → (parsePattern n.pattern).get? j = some q →
              q ≠ ":" ++ name ∧ q ≠ "*" ++ name) →
            (∃ v, (parsePattern path).get? i = some v) ∧
              params name = (parsePattern path).get? i) ∧
          (∀ i name, name ≠ "" → (parsePattern n.pattern).get? i = some ("*" ++ name) →
            params name = some ("/".intercalate ((parsePattern path).drop i)))) := by
  obtain ⟨r, hr, hok⟩ := addRoutes_done routes (newRouter H) (by
    intro m root hm
    simp [newRouter] at hm)
  exact ⟨r, hr, getRoute_of_depthOk r method path hok⟩

end gee
